import Mathlib

/-!
Verification of core kernel subsystems of a small xv6-style teaching kernel:
the physical page allocator (kernel/kalloc.c), the e1000 transmit ring
(kernel/e1000.c), the UDP socket layer (kernel/net.c), the block buffer cache
(kernel/bio.c) and the file/mmap system calls (kernel/sysfile.c).

Each subsystem is shallowly embedded: the C state is made an explicit Lean
structure, every C function becomes a Lean function on that state, and the
concurrency-free (sequential, interleaved-at-operation-granularity) behaviour
is captured by step relations whose reachable states we reason about.
Machine integers are modelled as Nat/Int; C ints that can go negative are Int.
-/

set_option maxRecDepth 10000

/-! Small general facts about `List.set`/`List.getD` used throughout. -/

theorem listGetD_set_self {α : Type} (l : List α) (i : Nat) (v d : α)
    (h : i < l.length) : (l.set i v).getD i d = v := by
  simp [List.getD, List.getElem?_set_self, h]

theorem listGetD_set_ne {α : Type} (l : List α) {i j : Nat} (v d : α)
    (h : i ≠ j) : (l.set i v).getD j d = l.getD j d := by
  simp [List.getD, List.getElem?_set_ne h]

/-! # PMEM: the physical page allocator (kernel/kalloc.c)

`kalloc` pops the head of a LIFO free list; `kfree` checks alignment and the
`[end, PHYSTOP)` range, then pushes the page on the head of the free list.
Page contents (the junk scrub patterns 5 and 1) do not affect the free list
and are not modelled.  The ghost field `allocated` records the frames handed
out by `kalloc` and not yet returned to `kfree`; it mirrors the caller-side
contract stated in the source comment that the argument to `kfree` "normally
should have been returned by a call to kalloc()". -/

namespace KAlloc

def PGSIZE : Nat := 4096

/-- State of `kmem`: the free list (head first), plus the ghost set of
currently handed-out frames. -/
structure KState where
  freelist : List Nat
  allocated : List Nat
deriving DecidableEq, Repr

/-- `kalloc()` from kernel/kalloc.c: pop the head of the free list
(returns 0, modelled as `none`, when the list is empty). -/
def kalloc (s : KState) : Option Nat × KState :=
  match s.freelist with
  | [] => (none, s)
  | r :: rest => (some r, { freelist := rest, allocated := r :: s.allocated })

/-- `kfree(pa)` from kernel/kalloc.c: panic (`none`) if `pa` is misaligned,
below the kernel `end` symbol or at/above `PHYSTOP`; otherwise push `pa`
onto the head of the free list. -/
def kfree (kend PHYSTOP pa : Nat) (s : KState) : Option KState :=
  if pa % PGSIZE ≠ 0 ∨ pa < kend ∨ PHYSTOP ≤ pa then
    none
  else
    some { freelist := pa :: s.freelist, allocated := s.allocated.erase pa }

/-- `freerange(pa_start, pa_end)`: `kfree` every page from
`PGROUNDUP(pa_start)` upward while `p + PGSIZE <= pa_end`.  The resulting
free list (head first) is the pages in decreasing address order. -/
def freerangeGo (base step : Nat) : Nat → List Nat
  | 0 => []
  | n + 1 => (base + n * step) :: freerangeGo base step n

def PGROUNDUP (a : Nat) : Nat := ((a + PGSIZE - 1) / PGSIZE) * PGSIZE

/-- Number of whole pages `freerange` frees between `PGROUNDUP(kend)`
and `PHYSTOP`. -/
def npages (kend PHYSTOP : Nat) : Nat := (PHYSTOP - PGROUNDUP kend) / PGSIZE

/-- `kinit()` (non-LAB_PGTBL branch): seed the free list from
`freerange(end, PHYSTOP)`; nothing is handed out yet. -/
def kinit (kend PHYSTOP : Nat) : KState :=
  { freelist := freerangeGo (PGROUNDUP kend) PGSIZE (npages kend PHYSTOP)
    allocated := [] }

/-- One client-visible step of the allocator: a `kalloc` call, or a `kfree`
of a frame that was previously returned by `kalloc` (the documented
contract of `kfree`). -/
inductive KStep (kend PHYSTOP : Nat) : KState → KState → Prop
  | alloc {s : KState} : KStep kend PHYSTOP s (kalloc s).2
  | free {s : KState} (pa : Nat) {s' : KState} (hmem : pa ∈ s.allocated)
      (h : kfree kend PHYSTOP pa s = some s') : KStep kend PHYSTOP s s'

/-- States reachable from `kinit` by `kalloc`/`kfree` calls. -/
inductive KReach (kend PHYSTOP : Nat) : KState → Prop
  | init : KReach kend PHYSTOP (kinit kend PHYSTOP)
  | step (s s' : KState) (h : KReach kend PHYSTOP s)
      (hs : KStep kend PHYSTOP s s') : KReach kend PHYSTOP s'

/-- The allocator invariant: no duplicates on the free list or among the
handed-out frames, and no frame is simultaneously free and handed out. -/
def KInv (s : KState) : Prop :=
  s.freelist.Nodup ∧ s.allocated.Nodup ∧ ∀ a ∈ s.allocated, a ∉ s.freelist

theorem freerangeGo_mem {base step x : Nat} :
    ∀ {n : Nat}, x ∈ freerangeGo base step n → ∃ i, i < n ∧ x = base + i * step := by
  intro n
  induction n with
  | zero => intro h; simp [freerangeGo] at h
  | succ m ih =>
    intro h
    simp only [freerangeGo, List.mem_cons] at h
    rcases h with h | h
    · exact ⟨m, Nat.lt_succ_self m, h⟩
    · obtain ⟨i, hi, hx⟩ := ih h
      exact ⟨i, Nat.lt_succ_of_lt hi, hx⟩

theorem freerangeGo_nodup {base step : Nat} (hstep : 0 < step) :
    ∀ n : Nat, (freerangeGo base step n).Nodup := by
  intro n
  induction n with
  | zero => simp [freerangeGo]
  | succ m ih =>
    simp only [freerangeGo, List.nodup_cons]
    refine ⟨?_, ih⟩
    intro hmem
    obtain ⟨i, hi, hx⟩ := freerangeGo_mem hmem
    have : i * step < m * step := Nat.mul_lt_mul_of_lt_of_le hi (Nat.le_refl step) hstep
    omega

theorem kinit_inv (kend PHYSTOP : Nat) : KInv (kinit kend PHYSTOP) := by
  refine ⟨freerangeGo_nodup (by norm_num [PGSIZE]) _, List.nodup_nil, ?_⟩
  intro a ha
  simp [kinit] at ha

theorem kstep_inv {kend PHYSTOP : Nat} {s s' : KState} (hinv : KInv s)
    (h : KStep kend PHYSTOP s s') : KInv s' := by
  obtain ⟨hnd, hand, hdisj⟩ := hinv
  cases h with
  | alloc =>
    unfold kalloc
    cases hfl : s.freelist with
    | nil => simpa [hfl] using ⟨hnd, hand, hdisj⟩
    | cons r rest =>
      rw [hfl] at hnd
      refine ⟨hnd.of_cons, ?_, ?_⟩
      · exact List.nodup_cons.mpr ⟨fun hr => hdisj r hr (by simp [hfl]), hand⟩
      · intro a ha
        simp only [List.mem_cons] at ha
        rcases ha with rfl | ha
        · exact (List.nodup_cons.mp hnd).1
        · intro hmem
          exact hdisj a ha (by simp [hfl, hmem])
  | free pa hmem hfree =>
    unfold kfree at hfree
    by_cases hc : pa % PGSIZE ≠ 0 ∨ pa < kend ∨ PHYSTOP ≤ pa
    · simp [hc] at hfree
    · simp only [hc, if_false, Option.some.injEq] at hfree
      subst hfree
      refine ⟨List.nodup_cons.mpr ⟨hdisj pa hmem, hnd⟩, hand.erase pa, ?_⟩
      intro a ha
      have ha' : a ∈ s.allocated := List.mem_of_mem_erase ha
      have hane : a ≠ pa := by
        intro heq
        subst heq
        exact hand.not_mem_erase ha
      intro hmem2
      simp only [List.mem_cons] at hmem2
      rcases hmem2 with rfl | hmem2
      · exact hane rfl
      · exact hdisj a ha' hmem2

theorem kreach_inv {kend PHYSTOP : Nat} {s : KState}
    (h : KReach kend PHYSTOP s) : KInv s := by
  induction h with
  | init => exact kinit_inv kend PHYSTOP
  | step s s' _ hs ih => exact kstep_inv ih hs

/-- C9: in every reachable allocator state, (1) a frame currently held by a
caller (returned by `kalloc` and not yet `kfree`d) is never returned again
by `kalloc`; and (2) freed frames are reused in LIFO order: a `kalloc`
performed immediately after `kfree(pa)` returns `pa` itself. -/
theorem kalloc_no_alias_and_lifo {kend PHYSTOP : Nat} {s : KState}
    (h : KReach kend PHYSTOP s) :
    (∀ r : Nat, (kalloc s).1 = some r → r ∉ s.allocated) ∧
    (∀ pa : Nat, ∀ s' : KState, kfree kend PHYSTOP pa s = some s' →
      (kalloc s').1 = some pa) := by
  obtain ⟨hnd, hand, hdisj⟩ := kreach_inv h
  constructor
  · intro r hr
    unfold kalloc at hr
    cases hfl : s.freelist with
    | nil => simp [hfl] at hr
    | cons x rest =>
      simp only [hfl] at hr
      cases hr
      intro hmem
      exact hdisj r hmem (by simp [hfl])
  · intro pa s' hfree
    unfold kfree at hfree
    by_cases hc : pa % PGSIZE ≠ 0 ∨ pa < kend ∨ PHYSTOP ≤ pa
    · simp [hc] at hfree
    · simp only [hc, if_false] at hfree
      cases hfree
      rfl

/-- Witness for C9 at a concrete instance: kernel end at 40960, PHYSTOP at
57344 (four free pages); the initial state is reachable, `kalloc` does not
return a held frame, and `kalloc` after `kfree` returns the freed frame. -/
theorem kalloc_no_alias_and_lifo_witness :
    (∀ r : Nat, (kalloc (kinit 40960 57344)).1 = some r →
      r ∉ (kinit 40960 57344).allocated) ∧
    (∀ pa : Nat, ∀ s' : KState, kfree 40960 57344 pa (kinit 40960 57344) = some s' →
      (kalloc s').1 = some pa) :=
  kalloc_no_alias_and_lifo (KReach.init)

end KAlloc

/-! # NIC: the e1000 transmit ring (kernel/e1000.c)

`e1000_transmit` reads the hardware tail index `TDT`, refuses with `-1` if
the descriptor there does not have its DD status bit set, otherwise frees
the previously stashed buffer, fills the descriptor, stashes the new buffer
and advances `TDT` modulo the ring size.  The device register `TDT` and the
rings are modelled explicitly; the hardware head side (the device setting
DD after transmission) is a separate step not exercised by a stalled NIC. -/

namespace E1000

def TX_RING_SIZE : Nat := 16

/-- Modelled from the spec: the numeric values of the descriptor bits come
from the device header `e1000_dev.h`, which is not part of the sources;
the spec's glossary defines DD as the descriptor-done status bit, and the
standard e1000 values are DD = 0x01 (status), EOP = 0x01 and RS = 0x08
(command). -/
def E1000_TXD_STAT_DD : Nat := 1

def E1000_TXD_CMD_EOP : Nat := 1

def E1000_TXD_CMD_RS : Nat := 8

/-- One entry of `tx_ring`: `struct tx_desc`. -/
structure TxDesc where
  addr : Nat
  length : Nat
  cmd : Nat
  status : Nat
deriving DecidableEq, Repr

/-- Driver-visible transmit state: the descriptor ring, the parallel
`tx_bufs` stash (a `none` is the C null pointer), and the `TDT` register. -/
structure TxState where
  tx_ring : List TxDesc
  tx_bufs : List (Option Nat)
  tdt : Nat
deriving DecidableEq, Repr

/-- The transmit half of `e1000_init`: every slot zeroed except for the DD
status bit, no stashed buffers, `TDT = 0`. -/
def e1000_init_tx : TxState :=
  { tx_ring := List.replicate TX_RING_SIZE
      { addr := 0, length := 0, cmd := 0, status := E1000_TXD_STAT_DD }
    tx_bufs := List.replicate TX_RING_SIZE none
    tdt := 0 }

/-- `e1000_transmit(buf, len)`: returns the C result and the new state. -/
def e1000_transmit (buf : Nat) (len : Nat) (s : TxState) : Int × TxState :=
  if (s.tx_ring.getD s.tdt { addr := 0, length := 0, cmd := 0, status := 0 }).status
      &&& E1000_TXD_STAT_DD = 0 then
    (-1, s)
  else
    (0, { tx_ring := s.tx_ring.set s.tdt
            { addr := buf, length := len,
              cmd := E1000_TXD_CMD_EOP ||| E1000_TXD_CMD_RS, status := 0 }
          tx_bufs := s.tx_bufs.set s.tdt (some buf)
          tdt := (s.tdt + 1) % TX_RING_SIZE })

/-- Driver level: whenever the descriptor at the tail index has its DD
bit clear (the ring is full), `e1000_transmit` returns `-1` and leaves
the entire transmit state — every previously filled slot, the stash and
`TDT` — unchanged. -/
theorem e1000_transmit_ring_full {s : TxState} {buf len : Nat}
    (hfull : (s.tx_ring.getD s.tdt
        { addr := 0, length := 0, cmd := 0, status := 0 }).status
        &&& E1000_TXD_STAT_DD = 0) :
    (e1000_transmit buf len s).1 = -1 ∧ (e1000_transmit buf len s).2 = s := by
  unfold e1000_transmit
  split
  · exact ⟨rfl, rfl⟩
  · next hne => exact absurd hfull hne

/-- A stalled NIC never sets DD, so repeated sends only run the driver side:
iterate `e1000_transmit` with dummy frames. -/
def stalledSends (n : Nat) : TxState :=
  Nat.rec e1000_init_tx (fun k s => (e1000_transmit (1000 + k) 64 s).2) n

/-- Concretely: after 16 back-to-back sends on a stalled NIC the ring is
full, and a 17th `e1000_transmit` returns `-1` and changes nothing. -/
theorem e1000_transmit_ring_full_witness :
    ((stalledSends 16).tx_ring.getD (stalledSends 16).tdt
        { addr := 0, length := 0, cmd := 0, status := 0 }).status
        &&& E1000_TXD_STAT_DD = 0 ∧
    (e1000_transmit 2000 64 (stalledSends 16)).1 = -1 ∧
    (e1000_transmit 2000 64 (stalledSends 16)).2 = stalledSends 16 := by
  refine ⟨by decide, e1000_transmit_ring_full (by decide)⟩

end E1000

/-! # NET: the UDP socket layer (kernel/net.c)

Sockets live in a fixed table of `SOCK_MAX = 16` slots; each bound socket
keeps a singly-linked FIFO queue (head = oldest) of at most `QUEUE_MAX = 16`
packets.  `ip_rx` enqueues at the tail (it walks the `next` chain to the
end); `sys_recv` dequeues at the head.  A packet record carries the frame
buffer page `buf`, the page `cell` holding the `struct packet` itself, the
parsed source fields, and `ulen`, the UDP length field of the frame (the
value of `ntohs(udp->ulen)`).  Header sizes are the wire-format sizes from
the spec: 14 (ethernet) + 20 (IPv4, IHL=5) + 8 (UDP) = 42. -/

namespace Net

def SOCK_MAX : Nat := 16

def QUEUE_MAX : Nat := 16

def IPPROTO_UDP : Nat := 17

def HDRS_LEN : Nat := 42

/-- One queued UDP packet (`struct packet`), with `cell` the kalloc page
holding the record itself. -/
structure Packet where
  buf : Nat
  len : Nat
  src_ip : Nat
  src_port : Nat
  ulen : Nat
  cell : Nat
deriving DecidableEq, Repr

/-- One socket-table slot (`struct sock`); the `next` chain is the list. -/
structure Sock where
  used : Bool
  port : Nat
  queue : List Packet
  queue_len : Int
deriving DecidableEq, Repr

def defaultSock : Sock := { used := false, port := 0, queue := [], queue_len := 0 }

structure NetState where
  sockets : List Sock
deriving DecidableEq, Repr

/-- The socket-table slot `i` (out-of-range reads give the zero slot). -/
def sockAt (s : NetState) (i : Nat) : Sock := s.sockets.getD i defaultSock

/-- `netinit()`: all sixteen slots unused and empty. -/
def netinit : NetState := { sockets := List.replicate SOCK_MAX defaultSock }

/-- The socket lookup loop shared by `sys_recv` and `ip_rx`: first used
slot bound to `dport`. -/
def findSockIdx (s : NetState) (dport : Nat) : Option Nat :=
  (List.range SOCK_MAX).find? (fun i => (sockAt s i).used && (sockAt s i).port == dport)

/-- The slot contents written by a successful `sys_bind`. -/
def boundSock (port : Nat) : Sock :=
  { used := true, port := port, queue := [], queue_len := 0 }

/-- The slot contents after `ip_rx` appends `pkt` at the tail of the queue. -/
def sockEnq (sk : Sock) (pkt : Packet) : Sock :=
  { used := sk.used, port := sk.port, queue := sk.queue ++ [pkt],
    queue_len := sk.queue_len + 1 }

/-- The slot contents after `sys_recv` pops the head, leaving `rest`. -/
def sockDeq (sk : Sock) (rest : List Packet) : Sock :=
  { used := sk.used, port := sk.port, queue := rest,
    queue_len := sk.queue_len - 1 }

/-- `sys_bind(port)`: the first loop returns `-1` if some used slot already
holds `port`; the second takes the first unused slot. -/
def sys_bind (port : Int) (s : NetState) : Int × NetState :=
  if port < 0 ∨ port > 65535 then
    (-1, s)
  else
    match (List.range SOCK_MAX).find? (fun i =>
        (sockAt s i).used && (sockAt s i).port == port.toNat) with
    | some _ => (-1, s)
    | none =>
      match (List.range SOCK_MAX).find? (fun i => !(sockAt s i).used) with
      | some i => (0, { sockets := s.sockets.set i (boundSock port.toNat) })
      | none => (-1, s)

/-- `sys_unbind(port)`: the body is the empty optional stub; it returns 0
without touching any state. -/
def sys_unbind (port : Int) (s : NetState) : Int × NetState :=
  (0, s)

/-- `ip_rx(buf, len)`.  The parsed frame fields (`ip_p`, `src_ip`, `sport`,
`dport`, `ulen`) are passed explicitly; `cell` is the result of the
`kalloc()` for the packet record (`none` = allocation failure).  Returns the
new state and `some b` when the frame page `b` was dropped and freed,
`none` when the packet was enqueued. -/
def ip_rx (buf : Nat) (len : Nat) (ip_p : Nat) (src_ip sport dport ulen : Nat)
    (cell : Option Nat) (s : NetState) : NetState × Option Nat :=
  if ip_p ≠ IPPROTO_UDP then (s, some buf)
  else if len < HDRS_LEN then (s, some buf)
  else
    match findSockIdx s dport with
    | none => (s, some buf)
    | some i =>
      if (sockAt s i).queue_len ≥ (QUEUE_MAX : Int) then
        (s, some buf)
      else
        match cell with
        | none => (s, some buf)
        | some c =>
          ({ sockets := s.sockets.set i
              (sockEnq (sockAt s i)
                { buf := buf, len := len, src_ip := src_ip,
                  src_port := sport, ulen := ulen, cell := c }) }, none)

/-- `sys_recv(dport, src, sport, buf, maxlen)`.  The three copyout outcomes
are the oracle booleans `ok1 ok2 ok3`.  Returns `none` when the call blocks
in `sleep` (empty queue); otherwise `some (ret, s2, freed, delivered)`
with `freed` the pages passed to `kfree` and `delivered` the packet whose
payload reached the user on success. -/
def sys_recv (dport : Int) (maxlen : Int) (ok1 ok2 ok3 : Bool) (s : NetState) :
    Option (Int × NetState × List Nat × Option Packet) :=
  if dport < 0 ∨ dport > 65535 ∨ maxlen < 0 then
    some (-1, s, [], none)
  else
    match findSockIdx s dport.toNat with
    | none => some (-1, s, [], none)
    | some i =>
      match (sockAt s i).queue with
      | [] => none
      | pkt :: rest =>
        if ok1 && ok2 && ok3 then
          some (min ((pkt.ulen : Int) - 8) maxlen,
            { sockets := s.sockets.set i (sockDeq (sockAt s i) rest) },
            [pkt.buf, pkt.cell], some pkt)
        else
          some (-1,
            { sockets := s.sockets.set i (sockDeq (sockAt s i) rest) },
            [pkt.buf, pkt.cell], none)

/-- One sequential step of the socket layer: any system call (with arbitrary
user arguments and copyout outcomes) or the arrival of a frame.  A `recv`
that would block (`none`) is not a step: it changes no state and resumes
later as the step it eventually completes. -/
inductive NetStep : NetState → NetState → Prop
  | bind {s : NetState} (port : Int) : NetStep s (sys_bind port s).2
  | unbind {s : NetState} (port : Int) : NetStep s (sys_unbind port s).2
  | rx {s : NetState} (buf len ip_p src_ip sport dport ulen : Nat)
      (cell : Option Nat) :
      NetStep s (ip_rx buf len ip_p src_ip sport dport ulen cell s).1
  | recv {s : NetState} (dport maxlen : Int) (ok1 ok2 ok3 : Bool)
      {r : Int} {s2 : NetState} {fr : List Nat} {dl : Option Packet}
      (h : sys_recv dport maxlen ok1 ok2 ok3 s = some (r, s2, fr, dl)) :
      NetStep s s2

inductive NetReach : NetState → Prop
  | init : NetReach netinit
  | step {s s2 : NetState} (h : NetReach s) (hs : NetStep s s2) : NetReach s2

/-- Per-slot soundness: the `queue_len` counter equals the queue length, the
queue never exceeds `QUEUE_MAX`, and a bound port fits in a `uint16`. -/
def SockOK (sk : Sock) : Prop :=
  sk.queue_len = sk.queue.length ∧ sk.queue.length ≤ QUEUE_MAX ∧
  (sk.used = true → sk.port ≤ 65535)

/-- Socket-table invariant: 16 slots, each slot sound, and at most one used
slot per port. -/
def NetInv (s : NetState) : Prop :=
  s.sockets.length = SOCK_MAX ∧
  (∀ i < SOCK_MAX, SockOK (sockAt s i)) ∧
  (∀ i < SOCK_MAX, ∀ j < SOCK_MAX, i ≠ j →
    (sockAt s i).used = true → (sockAt s j).used = true →
    (sockAt s i).port ≠ (sockAt s j).port)

theorem sockAt_netinit (i : Nat) : sockAt netinit i = defaultSock := by
  simp only [sockAt, netinit, List.getD, List.get?_eq_getElem?,
    List.getElem?_replicate]
  split <;> rfl

theorem sockOK_default : SockOK defaultSock := by
  refine ⟨rfl, ?_, ?_⟩ <;> simp [defaultSock, QUEUE_MAX]

theorem netinit_inv : NetInv netinit := by
  refine ⟨rfl, ?_, ?_⟩
  · intro i _
    rw [sockAt_netinit]
    exact sockOK_default
  · intro i _ j _ _ hu
    rw [sockAt_netinit] at hu
    exact absurd hu (by simp [defaultSock])

theorem sockAt_set_self {s : NetState} {i : Nat} (sk2 : Sock)
    (h : i < s.sockets.length) :
    sockAt { sockets := s.sockets.set i sk2 } i = sk2 :=
  listGetD_set_self _ _ _ _ h

theorem sockAt_set_ne {s : NetState} {i j : Nat} (sk2 : Sock) (h : i ≠ j) :
    sockAt { sockets := s.sockets.set i sk2 } j = sockAt s j :=
  listGetD_set_ne _ _ _ h

theorem find_unused_not_used {s : NetState} {i : Nat}
    (h : (List.range SOCK_MAX).find? (fun i => !(sockAt s i).used) = some i) :
    i < SOCK_MAX ∧ (sockAt s i).used = false := by
  have h1 := List.find?_some h
  have h2 := List.mem_of_find?_eq_some h
  rw [List.mem_range] at h2
  simp only [Bool.not_eq_true'] at h1
  exact ⟨h2, h1⟩

theorem find_sock_lt {s : NetState} {dport : Nat} {i : Nat}
    (h : findSockIdx s dport = some i) :
    i < SOCK_MAX ∧ (sockAt s i).used = true ∧ (sockAt s i).port = dport := by
  have h1 := List.find?_some h
  have h2 := List.mem_of_find?_eq_some h
  rw [List.mem_range] at h2
  simp only [Bool.and_eq_true, beq_iff_eq] at h1
  exact ⟨h2, h1.1, h1.2⟩

/-- Updating one slot without changing its `used`/`port` preserves the
invariant, provided the new slot is itself sound. -/
theorem netinv_update {s : NetState} (hinv : NetInv s) {i : Nat}
    (hi : i < SOCK_MAX) {sk2 : Sock}
    (hused : sk2.used = (sockAt s i).used) (hport : sk2.port = (sockAt s i).port)
    (hok2 : SockOK sk2) : NetInv { sockets := s.sockets.set i sk2 } := by
  obtain ⟨hlen, hok, huniq⟩ := hinv
  have hlt : i < s.sockets.length := by omega
  refine ⟨by simpa using hlen, ?_, ?_⟩
  · intro k hk
    by_cases hki : k = i
    · subst hki
      rw [sockAt_set_self _ hlt]
      exact hok2
    · rw [sockAt_set_ne _ (Ne.symm hki)]
      exact hok k hk
  · intro k hk l hl hkl
    by_cases hki : k = i <;> by_cases hli : l = i
    · exact absurd (hki.trans hli.symm) hkl
    · subst hki
      rw [sockAt_set_self _ hlt, sockAt_set_ne _ (Ne.symm hli)]
      intro hu1 hu2
      rw [hport]
      exact huniq k hk l hl hkl (hused ▸ hu1) hu2
    · subst hli
      rw [sockAt_set_self _ hlt, sockAt_set_ne _ (Ne.symm hki)]
      intro hu1 hu2
      rw [hport]
      exact huniq k hk l hl hkl hu1 (hused ▸ hu2)
    · rw [sockAt_set_ne _ (Ne.symm hki), sockAt_set_ne _ (Ne.symm hli)]
      exact huniq k hk l hl hkl

theorem netstep_inv {s s2 : NetState} (hinv : NetInv s) (h : NetStep s s2) :
    NetInv s2 := by
  cases h with
  | bind port =>
    unfold sys_bind
    split
    · exact hinv
    · rename_i hrange
      split
      · exact hinv
      · rename_i hnobind
        split
        · rename_i i hfind
          obtain ⟨hi, hunused⟩ := find_unused_not_used hfind
          obtain ⟨hlen, hok, huniq⟩ := hinv
          have hlt : i < s.sockets.length := by omega
          have hnone : ∀ k, k < SOCK_MAX →
              ¬((sockAt s k).used = true ∧ (sockAt s k).port = port.toNat) := by
            intro k hk hck
            have := List.find?_eq_none.mp hnobind k (List.mem_range.mpr hk)
            simp only [Bool.and_eq_true, beq_iff_eq] at this
            exact this ⟨hck.1, hck.2⟩
          refine ⟨by simpa using hlen, ?_, ?_⟩
          · intro k hk
            by_cases hki : k = i
            · subst hki
              rw [sockAt_set_self _ hlt]
              refine ⟨by simp [boundSock], by simp [boundSock, QUEUE_MAX], ?_⟩
              intro _
              simp only [boundSock]
              omega
            · rw [sockAt_set_ne _ (Ne.symm hki)]
              exact hok k hk
          · intro k hk l hl hkl
            by_cases hki : k = i <;> by_cases hli : l = i
            · exact absurd (hki.trans hli.symm) hkl
            · subst hki
              rw [sockAt_set_self _ hlt, sockAt_set_ne _ (Ne.symm hli)]
              intro _ hu2 hpeq
              exact hnone l hl ⟨hu2, by rw [← hpeq]; rfl⟩
            · subst hli
              rw [sockAt_set_self _ hlt, sockAt_set_ne _ (Ne.symm hki)]
              intro hu1 _ hpeq
              exact hnone k hk ⟨hu1, by rw [hpeq]; rfl⟩
            · rw [sockAt_set_ne _ (Ne.symm hki), sockAt_set_ne _ (Ne.symm hli)]
              exact huniq k hk l hl hkl
        · exact hinv
  | unbind port => exact hinv
  | rx buf len ip_p src_ip sport dport ulen cell =>
    unfold ip_rx
    split
    · exact hinv
    · split
      · exact hinv
      · split
        · exact hinv
        · rename_i i hfind
          split
          · exact hinv
          · rename_i hnotfull
            split
            · exact hinv
            · rename_i c
              obtain ⟨hi, hused, hport⟩ := find_sock_lt hfind
              obtain ⟨hql, hqb, hpb⟩ := (hinv.2.1) i hi
              refine netinv_update hinv hi rfl rfl ?_
              refine ⟨?_, ?_, fun hu => hpb hu⟩
              · simp only [sockEnq, List.length_append, List.length_cons,
                  List.length_nil]
                rw [hql]
                push_cast
                ring
              · simp only [sockEnq, List.length_append, List.length_cons,
                  List.length_nil]
                have hlt16 : ((sockAt s i).queue.length : Int) < QUEUE_MAX := by
                  rw [← hql]
                  exact lt_of_not_ge hnotfull
                omega
  | recv dport maxlen ok1 ok2 ok3 hrecv =>
    unfold sys_recv at hrecv
    split at hrecv
    · simp only [Option.some.injEq, Prod.mk.injEq] at hrecv
      obtain ⟨-, rfl, -, -⟩ := hrecv
      exact hinv
    · split at hrecv
      · simp only [Option.some.injEq, Prod.mk.injEq] at hrecv
        obtain ⟨-, rfl, -, -⟩ := hrecv
        exact hinv
      · rename_i i hfind
        obtain ⟨hi, hused, hport⟩ := find_sock_lt hfind
        obtain ⟨hql, hqb, hpb⟩ := (hinv.2.1) i hi
        split at hrecv
        · exact absurd hrecv (by simp)
        · rename_i pkt rest hq
          have hs2 : s2 = NetState.mk (s.sockets.set i (sockDeq (sockAt s i) rest)) := by
            split at hrecv <;>
            · simp only [Option.some.injEq, Prod.mk.injEq] at hrecv
              obtain ⟨-, h2, -, -⟩ := hrecv
              exact h2.symm
          subst hs2
          refine netinv_update hinv hi rfl rfl ?_
          refine ⟨?_, ?_, fun hu => hpb hu⟩
          · simp only [sockDeq]
            rw [hql, hq]
            simp only [List.length_cons]
            push_cast
            ring
          · simp only [sockDeq]
            rw [hq] at hqb
            simp only [List.length_cons] at hqb
            omega

theorem netreach_inv {s : NetState} (h : NetReach s) : NetInv s := by
  induction h with
  | init => exact netinit_inv
  | step h hs ih => exact netstep_inv ih hs

/-- Under the invariant, looking up the port of a bound slot finds exactly
that slot. -/
theorem findSockIdx_bound {s : NetState} {i p : Nat} (hinv : NetInv s)
    (hi : i < SOCK_MAX) (hu : (sockAt s i).used = true)
    (hp : (sockAt s i).port = p) : findSockIdx s p = some i := by
  obtain ⟨hlen, hok, huniq⟩ := hinv
  have hsome : (findSockIdx s p).isSome := by
    unfold findSockIdx
    rw [List.find?_isSome]
    exact ⟨i, List.mem_range.mpr hi, by simp [hu, hp]⟩
  cases hfind : findSockIdx s p with
  | none => rw [hfind] at hsome; simp at hsome
  | some j =>
    obtain ⟨hj, hju, hjp⟩ := find_sock_lt hfind
    by_cases hji : j = i
    · rw [hji]
    · exact absurd (hjp.trans hp.symm) (huniq j hj i hi hji hju hu)

/-- The state left by `sys_recv` after popping the head packet of slot `i`. -/
def recvPopState (s : NetState) (i : Nat) (rest : List Packet) : NetState :=
  { sockets := s.sockets.set i (sockDeq (sockAt s i) rest) }

/-- Successful `sys_recv` on a bound socket with a non-empty queue pops the
head packet. -/
theorem recv_pop {s : NetState} {i p : Nat} {pkt : Packet}
    {rest : List Packet} (hinv : NetInv s) (hi : i < SOCK_MAX)
    (hu : (sockAt s i).used = true) (hp : (sockAt s i).port = p)
    (hq : (sockAt s i).queue = pkt :: rest) (maxlen : Int) (hm : 0 ≤ maxlen) :
    sys_recv (p : Int) maxlen true true true s =
      some (min ((pkt.ulen : Int) - 8) maxlen, recvPopState s i rest,
        [pkt.buf, pkt.cell], some pkt) := by
  have hple : p ≤ 65535 := hp ▸ (hinv.2.1 i hi).2.2 hu
  have hfind : findSockIdx s p = some i := findSockIdx_bound hinv hi hu hp
  unfold sys_recv
  rw [if_neg (by push_cast; omega)]
  rw [show ((p : Int)).toNat = p by simp]
  split
  · rename_i heq2
    rw [hfind] at heq2
    cases heq2
  · rename_i i2 heq2
    rw [hfind] at heq2
    obtain rfl : i2 = i := (Option.some.inj heq2).symm
    split
    · rename_i hqnil
      rw [hq] at hqnil
      cases hqnil
    · rename_i pkt2 rest2 hq2
      rw [hq] at hq2
      injection hq2 with h1 h2
      subst h1
      subst h2
      simp [recvPopState]

/-- Draining reads: repeatedly `sys_recv` (all copyouts succeeding),
collecting the delivered packets. -/
def drain (dport : Int) : Nat → NetState → List Packet
  | 0, _ => []
  | fuel + 1, s =>
    match sys_recv dport 65536 true true true s with
    | some (_, s3, _, some pkt) => pkt :: drain dport fuel s3
    | _ => []

theorem drain_fifo {s : NetState} {i p : Nat} (hinv : NetInv s)
    (hi : i < SOCK_MAX) (hu : (sockAt s i).used = true)
    (hp : (sockAt s i).port = p) :
    drain (p : Int) (sockAt s i).queue.length s = (sockAt s i).queue := by
  generalize hq : (sockAt s i).queue = q
  induction q generalizing s with
  | nil => simp [drain]
  | cons pkt rest ih =>
    have hrecv := recv_pop hinv hi hu hp hq 65536 (by norm_num)
    have hstep : NetStep s (recvPopState s i rest) := NetStep.recv _ _ _ _ _ hrecv
    have hinv2 : NetInv (recvPopState s i rest) := netstep_inv hinv hstep
    have hlt : i < s.sockets.length := by
      rw [hinv.1]
      exact hi
    have hat2 : sockAt (recvPopState s i rest) i = sockDeq (sockAt s i) rest :=
      sockAt_set_self _ hlt
    simp only [List.length_cons, drain, hrecv]
    congr 1
    exact ih hinv2 (by rw [hat2]; exact hu) (by rw [hat2]; exact hp)
      (by rw [hat2]; rfl)

/-- C3: in every reachable socket-layer state (a) no queue ever exceeds 16
packets; (b) a frame arriving for a socket whose queue already holds 16 is
dropped (state unchanged, its buffer freed) without blocking; (c) a frame
arriving for a socket with room is enqueued at the tail; and (d) draining a
bound socket by successive `recv` calls returns the queued packets in
arrival order (dequeue at the head). -/
theorem udp_queue_bound_and_fifo {s : NetState} (h : NetReach s) :
    (∀ i, i < SOCK_MAX → (sockAt s i).queue.length ≤ QUEUE_MAX) ∧
    (∀ buf len ip_p src_ip sport dport ulen cell i,
      findSockIdx s dport = some i →
      (sockAt s i).queue.length = QUEUE_MAX →
      ip_rx buf len ip_p src_ip sport dport ulen cell s = (s, some buf)) ∧
    (∀ buf len src_ip sport dport ulen c i,
      HDRS_LEN ≤ len →
      findSockIdx s dport = some i →
      (sockAt s i).queue.length < QUEUE_MAX →
      (sockAt (ip_rx buf len IPPROTO_UDP src_ip sport dport ulen (some c) s).1 i).queue
        = (sockAt s i).queue ++
          [{ buf := buf, len := len, src_ip := src_ip, src_port := sport,
             ulen := ulen, cell := c }]) ∧
    (∀ i p, i < SOCK_MAX → (sockAt s i).used = true → (sockAt s i).port = p →
      drain (p : Int) (sockAt s i).queue.length s = (sockAt s i).queue) := by
  have hinv := netreach_inv h
  refine ⟨?_, ?_, ?_, ?_⟩
  · intro i hi
    exact (hinv.2.1 i hi).2.1
  · intro buf len ip_p src_ip sport dport ulen cell i hfind hfull
    obtain ⟨hi, hused, hport⟩ := find_sock_lt hfind
    have hql := (hinv.2.1 i hi).1
    unfold ip_rx
    split
    · rfl
    · split
      · rfl
      · split
        · rfl
        · rename_i i2 heq2
          rw [hfind] at heq2
          obtain rfl : i2 = i := (Option.some.inj heq2).symm
          split
          · rfl
          · rename_i hnotfull
            exfalso
            rw [hql, hfull] at hnotfull
            exact hnotfull (by norm_num [QUEUE_MAX])
  · intro buf len src_ip sport dport ulen c i hlen hfind hroom
    obtain ⟨hi, hused, hport⟩ := find_sock_lt hfind
    have hql := (hinv.2.1 i hi).1
    have hlt : i < s.sockets.length := by
      rw [hinv.1]
      exact hi
    unfold ip_rx
    rw [if_neg (by simp), if_neg (by omega)]
    split
    · rename_i heq2
      rw [hfind] at heq2
      cases heq2
    · rename_i i2 heq2
      rw [hfind] at heq2
      obtain rfl : i2 = i := (Option.some.inj heq2).symm
      rw [if_neg (by rw [hql]; push_cast; omega)]
      rw [sockAt_set_self _ hlt]
      rfl
  · intro i p hi hu hp
    exact drain_fifo hinv hi hu hp

/-- A concrete reachable state: bind port 2000, then receive two UDP
frames for it. -/
def netW1 : NetState := (sys_bind 2000 netinit).2

def netW2 : NetState := (ip_rx 501 50 17 9 7001 2000 20 (some 601) netW1).1

def netW3 : NetState := (ip_rx 502 50 17 9 7002 2000 20 (some 602) netW2).1

theorem netW3_reach : NetReach netW3 :=
  NetReach.step
    (NetReach.step (NetReach.step NetReach.init (NetStep.bind 2000))
      (NetStep.rx 501 50 17 9 7001 2000 20 (some 601)))
    (NetStep.rx 502 50 17 9 7002 2000 20 (some 602))

/-- Witness for C3 at the concrete two-packet state. -/
theorem udp_queue_bound_and_fifo_witness :
    (sockAt netW3 0).queue.length ≤ QUEUE_MAX ∧
    drain (2000 : Int) (sockAt netW3 0).queue.length netW3
      = (sockAt netW3 0).queue :=
  ⟨(udp_queue_bound_and_fifo netW3_reach).1 0 (by decide),
   (udp_queue_bound_and_fifo netW3_reach).2.2.2 0 2000 (by decide) (by decide)
     (by decide)⟩

/-- C7 (what the code actually does): `sys_unbind` is a stub.  After
`bind(2000)` and `unbind(2000)` the socket is still bound, and a further
UDP frame for port 2000 is still enqueued (not dropped): the drop/free
result of `ip_rx` is `none` and the queue grows to length 1. -/
theorem unbind_noop_packet_still_enqueued :
    (sys_unbind 2000 netW1).1 = 0 ∧
    (sys_unbind 2000 netW1).2 = netW1 ∧
    (sockAt (sys_unbind 2000 netW1).2 0).used = true ∧
    (sockAt (sys_unbind 2000 netW1).2 0).port = 2000 ∧
    (ip_rx 503 50 17 9 7003 2000 20 (some 603) (sys_unbind 2000 netW1).2).2
      = none ∧
    (sockAt (ip_rx 503 50 17 9 7003 2000 20 (some 603)
      (sys_unbind 2000 netW1).2).1 0).queue.length = 1 := by
  decide

/-- C10: when `sys_recv` finds a queued packet but a copyout fails, it
returns `-1` with the packet already unlinked from the queue and both its
pages freed; the queue is left at `rest`, not restored. -/
theorem recv_copyout_failure_drops_packet {s : NetState} {dport maxlen : Int}
    {i : Nat} {pkt : Packet} {rest : List Packet} {ok1 ok2 ok3 : Bool}
    (hrange : ¬(dport < 0 ∨ dport > 65535 ∨ maxlen < 0))
    (hfind : findSockIdx s dport.toNat = some i)
    (hq : (sockAt s i).queue = pkt :: rest)
    (hlt : i < s.sockets.length)
    (hfail : (ok1 && ok2 && ok3) = false) :
    sys_recv dport maxlen ok1 ok2 ok3 s =
      some (-1, recvPopState s i rest, [pkt.buf, pkt.cell], none) ∧
    (sockAt (recvPopState s i rest) i).queue = rest ∧
    (sockAt (recvPopState s i rest) i).queue ≠ (sockAt s i).queue := by
  refine ⟨?_, ?_, ?_⟩
  · unfold sys_recv
    rw [if_neg hrange]
    split
    · rename_i heq2
      rw [hfind] at heq2
      cases heq2
    · rename_i i2 heq2
      rw [hfind] at heq2
      obtain rfl : i2 = i := (Option.some.inj heq2).symm
      split
      · rename_i hqnil
        rw [hq] at hqnil
        cases hqnil
      · rename_i pkt2 rest2 hq2
        rw [hq] at hq2
        injection hq2 with h1 h2
        subst h1
        subst h2
        rw [hfail]
        simp [recvPopState]
  · rw [recvPopState, sockAt_set_self _ hlt]
    rfl
  · rw [recvPopState, sockAt_set_self _ hlt, hq]
    intro hcon
    have := congrArg List.length hcon
    simp [sockDeq] at this

/-- Witness for C10 at the concrete one-packet state: copyout of the
payload fails, the call returns `-1` and the packet is gone. -/
theorem recv_copyout_failure_drops_packet_witness :
    sys_recv 2000 100 true true false netW2 =
      some (-1, recvPopState netW2 0 [],
        [(501 : Nat), (601 : Nat)], none) ∧
    (sockAt (recvPopState netW2 0 []) 0).queue = [] ∧
    (sockAt (recvPopState netW2 0 []) 0).queue ≠ (sockAt netW2 0).queue := by
  exact @recv_copyout_failure_drops_packet netW2 2000 100 0
    { buf := 501, len := 50, src_ip := 9, src_port := 7001,
      ulen := 20, cell := 601 }
    [] true true false (by decide) (by decide) (by decide) (by decide)
    (by decide)


/-- Modelled from the spec: `PGSIZE` comes from `riscv.h`, which is not
part of the sources; the spec fixes 4096-byte pages. -/
def PGSIZE : Nat := 4096

/-- `sys_send(sport, dst, dport, bufaddr, len)` (net.c): reject frames
larger than a page, kalloc a frame page (`kallocRes = none` is the
out-of-memory path), build the ethernet/IP/UDP headers, copy the payload
in (`copyinOk` is the `copyin` outcome), then hand the frame to
`e1000_transmit` — whose result the C code DISCARDS — and return 0. -/
def sys_send (len : Nat) (kallocRes : Option Nat) (copyinOk : Bool)
    (tx : E1000.TxState) : Int × E1000.TxState :=
  if len + HDRS_LEN > PGSIZE then
    (-1, tx)
  else
    match kallocRes with
    | none => (-1, tx)
    | some buf =>
      if copyinOk then
        (0, (E1000.e1000_transmit buf (len + HDRS_LEN) tx).2)
      else
        (-1, tx)

/-- C2: the claim says a send call made while the TX ring is full (the
17th of 17 back-to-back sends with a stalled NIC) returns `-1`.  In the
code, `e1000_transmit` does refuse the frame with `-1` and modifies no
ring slot, but `sys_send` discards that result and returns 0, so the
17th send call returns 0, not `-1` (and the refused frame page is
leaked, never freed and never stashed for reclamation). -/
theorem sys_send_swallows_ring_full :
    (E1000.e1000_transmit 2000 106 (E1000.stalledSends 16)).1 = -1 ∧
    (sys_send 64 (some 2000) true (E1000.stalledSends 16)).1 = 0 ∧
    (sys_send 64 (some 2000) true (E1000.stalledSends 16)).2 =
      E1000.stalledSends 16 :=
  ⟨by decide, by decide, by decide⟩

end Net

/-! # FSCALL: `sys_link` (kernel/sysfile.c)

`sys_link(old, new)` looks up `old`, refuses directories, increments the
inode's `nlink` and writes it back, then looks up `new`'s parent and adds
the directory entry; every failure after the increment jumps to `bad`,
which decrements `nlink` again before returning `-1`.  The inode layer
(`namei`, `nameiparent`, `dirlink`, locking, `begin_op`/`end_op`) is
external to the sources (kernel/fs.c is absent); its outcomes enter the
model as an oracle record, per the spec's collaborator list.  The model
tracks the `nlink` of `old`'s inode and emits a trace of the mutating
inode-layer calls, in program order. -/

namespace Link

/-- Modelled from the spec: the inode type tag for directories (`T_DIR`
from kernel/stat.h, which is not among the sources; the exact value is
irrelevant, only its distinctness). -/
def T_DIR : Nat := 1

/-- The fields of an inode that `sys_link` consults. -/
structure Inode where
  dev : Nat
  inum : Nat
  itype : Nat
deriving DecidableEq, Repr

/-- Modelled from the spec: outcomes of the external inode-layer calls
(`namei(old)`, `nameiparent(new)`, `dirlink`), kernel/fs.c being outside
the sources. -/
structure LinkEnv where
  argsOk : Bool
  nameiOld : Option Inode
  nameiparentNew : Option Inode
  dirlinkOk : Bool
deriving DecidableEq, Repr

/-- Mutating inode-layer calls made by `sys_link`, in program order. -/
inductive LinkEv where
  | incNlink : LinkEv
  | decNlink : LinkEv
  | dirlinkAdd : LinkEv
deriving DecidableEq, Repr

/-- `sys_link`: result, final `nlink` of `old`'s inode (entered as
`nlink0`), and the trace of mutations. -/
def sys_link (env : LinkEnv) (nlink0 : Int) : Int × Int × List LinkEv :=
  if ¬env.argsOk then (-1, nlink0, [])
  else
    match env.nameiOld with
    | none => (-1, nlink0, [])
    | some ip =>
      if ip.itype = T_DIR then (-1, nlink0, [])
      else
        match env.nameiparentNew with
        | none => (-1, (nlink0 + 1) - 1, [LinkEv.incNlink, LinkEv.decNlink])
        | some dp =>
          if dp.dev ≠ ip.dev ∨ ¬env.dirlinkOk then
            (-1, (nlink0 + 1) - 1, [LinkEv.incNlink, LinkEv.decNlink])
          else
            (0, nlink0 + 1, [LinkEv.incNlink, LinkEv.dirlinkAdd])

/-- C6: `sys_link` (a) rejects directories with `-1` and untouched `nlink`;
(b) rejects cross-device links with `-1`; (c) on every `-1` return the
`nlink` of `old`'s inode equals its pre-call value and the trace is either
empty or an increment immediately undone; (d) on success `nlink` is one
higher and the increment precedes the directory-entry insertion. -/
theorem link_rejects_and_restores (env : LinkEnv) (nlink0 : Int) :
    (∀ ip, env.nameiOld = some ip → ip.itype = T_DIR →
      (sys_link env nlink0).1 = -1 ∧ (sys_link env nlink0).2.1 = nlink0) ∧
    (∀ ip dp, env.nameiOld = some ip → env.nameiparentNew = some dp →
      dp.dev ≠ ip.dev →
      (sys_link env nlink0).1 = -1 ∧ (sys_link env nlink0).2.1 = nlink0) ∧
    ((sys_link env nlink0).1 = -1 → (sys_link env nlink0).2.1 = nlink0 ∧
      ((sys_link env nlink0).2.2 = [] ∨
       (sys_link env nlink0).2.2 = [LinkEv.incNlink, LinkEv.decNlink])) ∧
    ((sys_link env nlink0).1 = 0 → (sys_link env nlink0).2.1 = nlink0 + 1 ∧
      (sys_link env nlink0).2.2 = [LinkEv.incNlink, LinkEv.dirlinkAdd]) := by
  refine ⟨?_, ?_, ?_, ?_⟩
  · intro ip hip hdir
    by_cases ha : env.argsOk
    · simp [sys_link, ha, hip, hdir]
    · simp [sys_link, ha]
  · intro ip dp hip hdp hdev
    by_cases ha : env.argsOk
    · by_cases hdir : ip.itype = T_DIR
      · simp [sys_link, ha, hip, hdir]
      · have hx : dp.dev ≠ ip.dev ∨ env.dirlinkOk = false := Or.inl hdev
        simp [sys_link, ha, hip, hdir, hdp, hx]
    · simp [sys_link, ha]
  · by_cases ha : env.argsOk
    · cases hip : env.nameiOld with
      | none => simp [sys_link, ha, hip]
      | some ip =>
        by_cases hdir : ip.itype = T_DIR
        · simp [sys_link, ha, hip, hdir]
        · cases hdp : env.nameiparentNew with
          | none => simp [sys_link, ha, hip, hdir, hdp]
          | some dp =>
            by_cases hx : dp.dev ≠ ip.dev ∨ env.dirlinkOk = false
            · simp [sys_link, ha, hip, hdir, hdp, hx]
            · simp [sys_link, ha, hip, hdir, hdp, hx]
    · simp [sys_link, ha]
  · by_cases ha : env.argsOk
    · cases hip : env.nameiOld with
      | none => simp [sys_link, ha, hip]
      | some ip =>
        by_cases hdir : ip.itype = T_DIR
        · simp [sys_link, ha, hip, hdir]
        · cases hdp : env.nameiparentNew with
          | none => simp [sys_link, ha, hip, hdir, hdp]
          | some dp =>
            by_cases hx : dp.dev ≠ ip.dev ∨ env.dirlinkOk = false
            · simp [sys_link, ha, hip, hdir, hdp, hx]
            · simp [sys_link, ha, hip, hdir, hdp, hx]
    · simp [sys_link, ha]

/-- Witness for C6: a cross-device request is rejected with the link count
restored, and a clean request succeeds with the increment first. -/
theorem link_rejects_and_restores_witness :
    ((sys_link ⟨true, some ⟨0, 5, 2⟩, some ⟨1, 1, T_DIR⟩, true⟩ 1).1 = -1 ∧
      (sys_link ⟨true, some ⟨0, 5, 2⟩, some ⟨1, 1, T_DIR⟩, true⟩ 1).2.1 = 1) ∧
    ((sys_link ⟨true, some ⟨0, 5, 2⟩, some ⟨0, 1, T_DIR⟩, true⟩ 1).2.1 = 2 ∧
      (sys_link ⟨true, some ⟨0, 5, 2⟩, some ⟨0, 1, T_DIR⟩, true⟩ 1).2.2
        = [LinkEv.incNlink, LinkEv.dirlinkAdd]) :=
  ⟨(link_rejects_and_restores ⟨true, some ⟨0, 5, 2⟩, some ⟨1, 1, T_DIR⟩, true⟩ 1).2.1
      ⟨0, 5, 2⟩ ⟨1, 1, T_DIR⟩ rfl rfl (by decide),
   (link_rejects_and_restores ⟨true, some ⟨0, 5, 2⟩, some ⟨0, 1, T_DIR⟩, true⟩ 1).2.2.2
      (by decide)⟩

end Link

/-! # MMAP: file-backed mappings (kernel/sysfile.c, LAB_MMAP part)

`sys_mmap` picks a free VMA slot and a page-aligned region below
`TRAPFRAME`, growing downward from just under the trampoline page;
`sys_munmap` collects the currently-present pages of the range (capped at
16 by the fixed `dirty_pages[16]` array), writes them back to the inode
inside one `begin_op`/`end_op` transaction when the mapping is
`MAP_SHARED` (each write bounded by the inode size), unmaps the pages and
trims or frees the VMA.  Addresses and lengths are uint64: sums and
differences that can wrap are taken modulo `2^64` (`add64`, `sub64`,
`PGROUNDUP64`).  The page table enters the model as the list of
page-aligned virtual addresses with a valid PTE; `files` is the table of
inode sizes indexed by the VMA's file handle.  The constants `MAXVA`,
`TRAPFRAME`, `NVMA` and the flag values come from headers absent from the
sources (memlayout.h, param.h, fcntl.h); they are modelled from the spec
and the standard xv6 values (`MAXVA = 2^38`, trampoline and trapframe the
two top pages, 16 VMA slots, `MAP_SHARED = 1`). -/

namespace Mmap

def PGSIZE : Nat := 4096

def W64 : Nat := 2 ^ 64

def add64 (a b : Nat) : Nat := (a + b) % W64

def sub64 (a b : Nat) : Nat := (a + W64 - b) % W64

def PGROUNDUP64 (a : Nat) : Nat := (((a + PGSIZE - 1) % W64) / PGSIZE) * PGSIZE

def PGROUNDDOWN (a : Nat) : Nat := (a / PGSIZE) * PGSIZE

/-- Modelled from the spec: `MAXVA = 2^38` with the trampoline and
trapframe pages at the top (memlayout.h is absent from the sources). -/
def MAXVA : Nat := 2 ^ 38

def TRAMPOLINE : Nat := MAXVA - PGSIZE

def TRAPFRAME : Nat := TRAMPOLINE - PGSIZE

/-- Modelled from the spec: 16 per-process VMA slots (param.h absent). -/
def NVMA : Nat := 16

/-- Modelled from the spec: mmap flag/prot constants (fcntl.h absent);
standard xv6 mmap-lab values. -/
def MAP_SHARED : Nat := 1

def MAP_PRIVATE : Nat := 2

def PROT_WRITE : Nat := 2

def MMAP_FAILED : Nat := 2 ^ 64 - 1

/-- One `struct vma` slot. -/
structure VMA where
  used : Bool
  addr : Nat
  len : Nat
  prot : Nat
  flags : Nat
  f : Nat
  offset : Nat
deriving DecidableEq, Repr

def defaultVMA : VMA :=
  { used := false, addr := 0, len := 0, prot := 0, flags := 0, f := 0, offset := 0 }

/-- The mmap-relevant per-process state: the VMA table, `p->sz`, the set of
mapped page-aligned virtual addresses (valid PTEs), and the inode sizes
indexed by file handle. -/
structure MProc where
  vmas : List VMA
  sz : Nat
  pagetable : List Nat
  files : List Nat
deriving DecidableEq, Repr

def vmaAt (p : MProc) (i : Nat) : VMA := p.vmas.getD i defaultVMA

/-- The conflict test of `sys_mmap`'s inner loop: overlap with a used VMA,
or crossing above `TRAPFRAME`. -/
def conflictAt (vmas : List VMA) (va sz : Nat) : Bool :=
  (vmas.any (fun v => v.used &&
    !(decide (add64 va sz ≤ v.addr) || decide (va ≥ add64 v.addr v.len)))) ||
  decide (add64 va sz > TRAPFRAME)

/-- The descending search loop of `sys_mmap` (`for(; va >= p->sz + sz;
va -= PGSIZE)`), with fuel strictly larger than the possible number of
iterations. -/
def findVA (vmas : List VMA) (psz sz : Nat) : Nat → Nat → Option Nat
  | 0, _ => none
  | fuel + 1, va =>
    if va < add64 psz sz then none
    else if conflictAt vmas va sz then findVA vmas psz sz fuel (va - PGSIZE)
    else some va

/-- `sys_mmap(addr, len, prot, flags, fd, offset)`.  `fdOk` is the fd
validity check, `readable`/`writable` the open-file mode bits; `f` is the
file handle recorded in the VMA.  Returns `0xffffffffffffffff` on error. -/
def sys_mmap (addr len prot flags : Nat) (fdOk readable writable : Bool)
    (f offset : Nat) (p : MProc) : Nat × MProc :=
  if addr ≠ 0 then (MMAP_FAILED, p)
  else if len = 0 then (MMAP_FAILED, p)
  else if ¬fdOk then (MMAP_FAILED, p)
  else if flags = MAP_SHARED ∧ prot &&& PROT_WRITE ≠ 0 ∧ ¬writable then
    (MMAP_FAILED, p)
  else if ¬readable then (MMAP_FAILED, p)
  else
    match (List.range NVMA).find? (fun i => !(vmaAt p i).used) with
    | none => (MMAP_FAILED, p)
    | some i =>
      match findVA p.vmas p.sz (PGROUNDUP64 len) (MAXVA / PGSIZE + 1)
          (MAXVA - PGSIZE) with
      | none => (MMAP_FAILED, p)
      | some va =>
        (va, MProc.mk
          (p.vmas.set i (VMA.mk true va (PGROUNDUP64 len) prot flags f offset))
          p.sz p.pagetable p.files)

/-- The VMA update of a full `sys_munmap` removal (plus `fileclose`). -/
def vmaFree (v : VMA) : VMA := { v with used := false }

/-- The VMA update when unmapping from the start of the region. -/
def vmaTrimStart (v : VMA) (len : Nat) : VMA :=
  { v with addr := add64 v.addr len, len := sub64 v.len len,
           offset := add64 v.offset len }

/-- The VMA update when unmapping from the end of the region. -/
def vmaTrimEnd (v : VMA) (len : Nat) : VMA :=
  { v with len := sub64 v.len len }

/-- The VMA lookup loop shared by `sys_munmap` and `handle_mmap_fault`:
first used slot whose range contains `addr`. -/
def findVMAIdx (p : MProc) (addr : Nat) : Option Nat :=
  (List.range NVMA).find? (fun i => (vmaAt p i).used &&
    decide ((vmaAt p i).addr ≤ addr) &&
    decide (addr < add64 (vmaAt p i).addr (vmaAt p i).len))

/-- Journalled write-back events emitted by `sys_munmap`, in program
order. -/
inductive MEv where
  | beginOp : MEv
  | writeEv (f : Nat) (off : Nat) (nbytes : Nat) : MEv
  | endOp : MEv
deriving DecidableEq, Repr

/-- The page-aligned addresses `start, start+PGSIZE, ...` below `endv`. -/
def pageRange (start endv : Nat) : List Nat :=
  (List.range ((endv - start) / PGSIZE)).map (fun k => start + k * PGSIZE)

/-- The `dirty_pages` collection loop of `sys_munmap`: walk the range,
keep present pages of a `MAP_SHARED` mapping, stop recording after 16
(`if(ndirty < 16)`). -/
def collectDirty (p : MProc) (vma : VMA) (start endv : Nat) : List Nat :=
  (pageRange start endv).foldl (fun acc va =>
    if p.pagetable.contains va then
      if vma.flags = MAP_SHARED then
        if acc.length < 16 then acc ++ [va] else acc
      else acc
    else acc) []

/-- The write-back loop body: one `writei` per collected page whose offset
lies below the inode's current size, of `min(PGSIZE, size - offset)`
bytes. -/
def writeEvents (p : MProc) (vma : VMA) (dirty : List Nat) : List MEv :=
  dirty.filterMap (fun va =>
    if vma.offset + sub64 va vma.addr < p.files.getD vma.f 0 then
      some (MEv.writeEv vma.f (vma.offset + sub64 va vma.addr)
        (min PGSIZE (p.files.getD vma.f 0 - (vma.offset + sub64 va vma.addr))))
    else none)

/-- `sys_munmap(addr, len)`: result, new state, and the trace of journal
events (`begin_op`, `writei`s, `end_op`). -/
def sys_munmap (addr len : Nat) (p : MProc) : Int × MProc × List MEv :=
  match findVMAIdx p addr with
  | none => (-1, p, [])
  | some i =>
    if addr ≠ (vmaAt p i).addr ∧
        add64 addr len ≠ add64 (vmaAt p i).addr (vmaAt p i).len then
      (-1, p, [])
    else
      (0, { p with
        pagetable := p.pagetable.filter (fun va =>
          !(decide (PGROUNDDOWN addr ≤ va) &&
            decide (va < PGROUNDUP64 (add64 addr len))))
        vmas :=
          if addr = (vmaAt p i).addr ∧ len = (vmaAt p i).len then
            p.vmas.set i (vmaFree (vmaAt p i))
          else if addr = (vmaAt p i).addr then
            p.vmas.set i (vmaTrimStart (vmaAt p i) len)
          else
            p.vmas.set i (vmaTrimEnd (vmaAt p i) len) },
      if 0 < (collectDirty p (vmaAt p i) (PGROUNDDOWN addr)
          (PGROUNDUP64 (add64 addr len))).length then
        MEv.beginOp ::
          writeEvents p (vmaAt p i)
            (collectDirty p (vmaAt p i) (PGROUNDDOWN addr)
              (PGROUNDUP64 (add64 addr len))) ++ [MEv.endOp]
      else [])

/-- `handle_mmap_fault(va)`: look up the covering VMA; fail if the page is
already mapped (permission fault) or `kalloc`/`mappages` fails
(`allocOk`/`mapOk`); otherwise install the page. -/
def handle_mmap_fault (fault_va : Nat) (allocOk mapOk : Bool) (p : MProc) :
    Int × MProc :=
  match findVMAIdx p fault_va with
  | none => (-1, p)
  | some _ =>
    if p.pagetable.contains (PGROUNDDOWN fault_va) then (-1, p)
    else if ¬allocOk then (-1, p)
    else if ¬mapOk then (-1, p)
    else (0, { p with pagetable := PGROUNDDOWN fault_va :: p.pagetable })

/-- Per-slot soundness of a used VMA: page-aligned start and length, and
the whole range below `TRAPFRAME`. -/
def VMAok (v : VMA) : Prop :=
  v.addr % PGSIZE = 0 ∧ v.len % PGSIZE = 0 ∧ v.addr + v.len ≤ TRAPFRAME

/-- Two VMA ranges do not overlap. -/
def VMAdisj (v w : VMA) : Prop :=
  v.addr + v.len ≤ w.addr ∨ w.addr + w.len ≤ v.addr

/-- C8's invariant over the VMA table. -/
def VMAinv (p : MProc) : Prop :=
  p.vmas.length = NVMA ∧
  (∀ i, i < NVMA → (vmaAt p i).used = true → VMAok (vmaAt p i)) ∧
  (∀ i, i < NVMA → ∀ j, j < NVMA → i ≠ j → (vmaAt p i).used = true →
    (vmaAt p j).used = true → VMAdisj (vmaAt p i) (vmaAt p j))

theorem vmaAt_set_self {p : MProc} {i : Nat} (v : VMA) (sz pt fs)
    (h : i < p.vmas.length) :
    vmaAt (MProc.mk (p.vmas.set i v) sz pt fs) i = v :=
  listGetD_set_self _ _ _ _ h

theorem vmaAt_set_ne {p : MProc} {i j : Nat} (v : VMA) (sz pt fs) (h : i ≠ j) :
    vmaAt (MProc.mk (p.vmas.set i v) sz pt fs) j = vmaAt p j :=
  listGetD_set_ne _ _ _ h

theorem sub_pgsize_aligned {va : Nat} (h : va % PGSIZE = 0) :
    (va - PGSIZE) % PGSIZE = 0 := by
  simp only [PGSIZE] at h ⊢
  omega

theorem findVA_some {vmas : List VMA} {psz sz : Nat} :
    ∀ {fuel va0 va : Nat}, va0 % PGSIZE = 0 →
    findVA vmas psz sz fuel va0 = some va →
    va % PGSIZE = 0 ∧ va ≤ va0 ∧ conflictAt vmas va sz = false := by
  intro fuel
  induction fuel with
  | zero =>
    intro va0 va h0 h
    simp [findVA] at h
  | succ n ih =>
    intro va0 va h0 h
    rw [findVA] at h
    split at h
    · cases h
    · split at h
      · obtain ⟨ha, hb, hc⟩ := ih (sub_pgsize_aligned h0) h
        exact ⟨ha, le_trans hb (Nat.sub_le _ _), hc⟩
      · rename_i hconf
        obtain rfl : va0 = va := Option.some.inj h
        exact ⟨h0, le_refl _, Bool.eq_false_iff.mpr hconf⟩

theorem conflictAt_false {vmas : List VMA} {va sz : Nat}
    (h : conflictAt vmas va sz = false) :
    (∀ v ∈ vmas, v.used = true →
      add64 va sz ≤ v.addr ∨ add64 v.addr v.len ≤ va) ∧
    add64 va sz ≤ TRAPFRAME := by
  unfold conflictAt at h
  rw [Bool.or_eq_false_iff] at h
  obtain ⟨h1, h2⟩ := h
  constructor
  · intro v hv hu
    rw [List.any_eq_false] at h1
    have hb := h1 v hv
    rw [hu] at hb
    simp only [Bool.true_and, Bool.not_eq_true', Bool.not_eq_false,
      Bool.or_eq_true, decide_eq_true_eq, ge_iff_le] at hb
    exact hb
  · simpa using h2

theorem pgroundup64_mod {a : Nat} : PGROUNDUP64 a % PGSIZE = 0 := by
  simp [PGROUNDUP64, Nat.mul_mod_left]

theorem pgroundup64_le {a : Nat} (h : a < 2 ^ 63) : PGROUNDUP64 a ≤ a + PGSIZE := by
  unfold PGROUNDUP64 PGSIZE W64
  have hlt : a + 4096 - 1 < 2 ^ 64 := by omega
  rw [Nat.mod_eq_of_lt hlt]
  have := Nat.div_mul_le_self (a + 4096 - 1) 4096
  omega

theorem listGetD_mem {α : Type} (l : List α) (i : Nat) (d : α)
    (h : i < l.length) : l.getD i d ∈ l := by
  rw [List.getD_eq_getElem l d h]
  exact List.getElem_mem h

theorem add64_eq_of_lt {a b : Nat} (h : a + b < W64) : add64 a b = a + b :=
  Nat.mod_eq_of_lt h

theorem sub64_eq_of_le {a b : Nat} (hb : b ≤ a) (ha : a < W64) :
    sub64 a b = a - b := by
  unfold sub64
  rw [show a + W64 - b = W64 + (a - b) by omega]
  rw [Nat.add_mod_left]
  exact Nat.mod_eq_of_lt (by omega)

/-- The found VMA of `findVMAIdx` is used and its range contains `addr`. -/
theorem findVMAIdx_some {p : MProc} {addr i : Nat}
    (h : findVMAIdx p addr = some i) :
    i < NVMA ∧ (vmaAt p i).used = true ∧ (vmaAt p i).addr ≤ addr ∧
    addr < add64 (vmaAt p i).addr (vmaAt p i).len := by
  have h1 := List.find?_some h
  have h2 := List.mem_of_find?_eq_some h
  rw [List.mem_range] at h2
  simp only [Bool.and_eq_true, decide_eq_true_eq] at h1
  exact ⟨h2, h1.1.1, h1.1.2, h1.2⟩

/-- C8 (amended): the VMA invariant — pairwise-disjoint used ranges lying
below `TRAPFRAME`, with page-aligned `addr` and `len` — is preserved by
`handle_mmap_fault`, by every `sys_mmap` whose requested length is below
`2^63` (the regime without 64-bit wrap-around), and by every `sys_munmap`
whose length is a multiple of `PGSIZE` and at most the length of the
containing VMA.  (Unrestricted `munmap` lengths break it; see the
counterexample.) -/
theorem vma_invariant_preserved {p : MProc} (hinv : VMAinv p) :
    (∀ addr len prot flags fdOk readable writable f offset,
      len < 2 ^ 63 →
      VMAinv (sys_mmap addr len prot flags fdOk readable writable f offset p).2) ∧
    (∀ addr len,
      len % PGSIZE = 0 →
      (∀ i, findVMAIdx p addr = some i → len ≤ (vmaAt p i).len) →
      VMAinv (sys_munmap addr len p).2.1) ∧
    (∀ va allocOk mapOk, VMAinv (handle_mmap_fault va allocOk mapOk p).2) := by
  obtain ⟨hlen, hok, hdisj⟩ := hinv
  refine ⟨?_, ?_, ?_⟩
  · intro addr len prot flags fdOk readable writable f offset hlen63
    unfold sys_mmap
    split
    · exact ⟨hlen, hok, hdisj⟩
    · split
      · exact ⟨hlen, hok, hdisj⟩
      · split
        · exact ⟨hlen, hok, hdisj⟩
        · split
          · exact ⟨hlen, hok, hdisj⟩
          · split
            · exact ⟨hlen, hok, hdisj⟩
            · split
              · exact ⟨hlen, hok, hdisj⟩
              · rename_i i hfree
                split
                · exact ⟨hlen, hok, hdisj⟩
                · rename_i va hva
                  have hi : i < NVMA := by
                    have h2 := List.mem_of_find?_eq_some hfree
                    rwa [List.mem_range] at h2
                  obtain ⟨hal, hle, hconf⟩ := findVA_some (by decide) hva
                  obtain ⟨hnool, htrap⟩ := conflictAt_false hconf
                  have hszle : PGROUNDUP64 len ≤ len + PGSIZE :=
                    pgroundup64_le hlen63
                  have hsum : va + PGROUNDUP64 len < W64 := by
                    have : va ≤ MAXVA - PGSIZE := hle
                    simp only [MAXVA, PGSIZE, W64] at this hszle ⊢
                    omega
                  have htrap2 : va + PGROUNDUP64 len ≤ TRAPFRAME := by
                    rw [add64_eq_of_lt hsum] at htrap
                    exact htrap
                  have hlt : i < p.vmas.length := by omega
                  refine ⟨by simpa using hlen, ?_, ?_⟩
                  · intro k hk
                    by_cases hki : k = i
                    · subst hki
                      rw [vmaAt_set_self _ _ _ _ hlt]
                      intro _
                      exact ⟨hal, pgroundup64_mod, htrap2⟩
                    · rw [vmaAt_set_ne _ _ _ _ (Ne.symm hki)]
                      exact hok k hk
                  · intro k hk j hj hkj
                    by_cases hki : k = i <;> by_cases hji : j = i
                    · exact absurd (hki.trans hji.symm) hkj
                    · subst hki
                      rw [vmaAt_set_self _ _ _ _ hlt,
                        vmaAt_set_ne _ _ _ _ (Ne.symm hji)]
                      intro _ huj
                      have hmem : vmaAt p j ∈ p.vmas := listGetD_mem _ _ _ (by omega)
                      have hdj := hnool (vmaAt p j) hmem huj
                      have hjtrap := ((hok j hj) huj).2.2
                      rw [add64_eq_of_lt hsum] at hdj
                      rw [add64_eq_of_lt (by simp only [TRAPFRAME,
                        TRAMPOLINE, MAXVA, PGSIZE, W64] at hjtrap ⊢; omega)] at hdj
                      exact hdj
                    · subst hji
                      rw [vmaAt_set_self _ _ _ _ hlt,
                        vmaAt_set_ne _ _ _ _ (Ne.symm hki)]
                      intro huk _
                      have hmem : vmaAt p k ∈ p.vmas := listGetD_mem _ _ _ (by omega)
                      have hdk := hnool (vmaAt p k) hmem huk
                      have hktrap := ((hok k hk) huk).2.2
                      rw [add64_eq_of_lt hsum] at hdk
                      rw [add64_eq_of_lt (by simp only [TRAPFRAME,
                        TRAMPOLINE, MAXVA, PGSIZE, W64] at hktrap ⊢; omega)] at hdk
                      rcases hdk with hdk | hdk
                      · exact Or.inr hdk
                      · exact Or.inl hdk
                    · rw [vmaAt_set_ne _ _ _ _ (Ne.symm hki),
                        vmaAt_set_ne _ _ _ _ (Ne.symm hji)]
                      exact hdisj k hk j hj hkj
  · intro addr len hlal hlenle
    unfold sys_munmap
    split
    · exact ⟨hlen, hok, hdisj⟩
    · rename_i i hfind
      obtain ⟨hi, hused, haddrge, haddrlt64⟩ := findVMAIdx_some hfind
      obtain ⟨hva, hvl, hvt⟩ := (hok i hi) hused
      have hW : (vmaAt p i).addr + (vmaAt p i).len < W64 := by
        simp only [TRAPFRAME, TRAMPOLINE, MAXVA, PGSIZE, W64] at hvt ⊢
        omega
      have haddrlt : addr < (vmaAt p i).addr + (vmaAt p i).len := by
        rw [add64_eq_of_lt hW] at haddrlt64
        exact haddrlt64
      have hlenv : len ≤ (vmaAt p i).len := hlenle i hfind
      have hlt : i < p.vmas.length := by omega
      split
      · exact ⟨hlen, hok, hdisj⟩
      · rename_i hguard
        have halen64 : addr + len < W64 := by
          simp only [TRAPFRAME, TRAMPOLINE, MAXVA, PGSIZE, W64] at hvt ⊢
          omega
        refine ⟨by split <;> [skip; split] <;> simpa using hlen, ?_, ?_⟩
        · intro k hk
          by_cases hki : k = i
          · subst hki
            split
            · rw [vmaAt_set_self _ _ _ _ hlt]
              intro hcon
              simp [vmaFree] at hcon
            · split
              · rename_i hcase2
                rename_i hcase1
                rw [vmaAt_set_self _ _ _ _ hlt]
                intro _
                have hltlen : len < (vmaAt p k).len := by
                  rcases Nat.lt_or_ge len (vmaAt p k).len with h | h
                  · exact h
                  · exact absurd (And.intro hcase2 (le_antisymm hlenv h))
                      hcase1
                refine ⟨?_, ?_, ?_⟩
                · simp only [vmaTrimStart,
                    add64_eq_of_lt (show (vmaAt p k).addr + len < W64 by omega)]
                  simp only [PGSIZE] at hva hlal ⊢
                  omega
                · simp only [vmaTrimStart, sub64_eq_of_le (le_of_lt hltlen)
                    (by omega)]
                  simp only [PGSIZE] at hvl hlal ⊢
                  omega
                · simp only [vmaTrimStart,
                    add64_eq_of_lt (show (vmaAt p k).addr + len < W64 by omega),
                    sub64_eq_of_le (le_of_lt hltlen) (by omega)]
                  omega
              · rw [vmaAt_set_self _ _ _ _ hlt]
                intro _
                refine ⟨?_, ?_, ?_⟩
                · exact hva
                · simp only [vmaTrimEnd, sub64_eq_of_le hlenv (by omega)]
                  simp only [PGSIZE] at hvl hlal ⊢
                  omega
                · simp only [vmaTrimEnd, sub64_eq_of_le hlenv (by omega)]
                  omega
          · split
            · rw [vmaAt_set_ne _ _ _ _ (Ne.symm hki)]
              exact hok k hk
            · split
              · rw [vmaAt_set_ne _ _ _ _ (Ne.symm hki)]
                exact hok k hk
              · rw [vmaAt_set_ne _ _ _ _ (Ne.symm hki)]
                exact hok k hk
        · intro k hk j hj hkj
          by_cases hki : k = i <;> by_cases hji : j = i
          · exact absurd (hki.trans hji.symm) hkj
          · subst hki
            split
            · rw [vmaAt_set_self _ _ _ _ hlt]
              intro hcon
              simp [vmaFree] at hcon
            · split
              · rename_i hcase2
                rename_i hcase1
                rw [vmaAt_set_self _ _ _ _ hlt,
                  vmaAt_set_ne _ _ _ _ (Ne.symm hji)]
                intro _ huj
                have hltlen : len < (vmaAt p k).len := by
                  rcases Nat.lt_or_ge len (vmaAt p k).len with h | h
                  · exact h
                  · exact absurd (And.intro hcase2 (le_antisymm hlenv h))
                      hcase1
                have hd := hdisj k hk j hj hkj hused huj
                simp only [VMAdisj, vmaTrimStart,
                  add64_eq_of_lt (show (vmaAt p k).addr + len < W64 by omega),
                  sub64_eq_of_le (le_of_lt hltlen) (by omega)] at hd ⊢
                omega
              · rw [vmaAt_set_self _ _ _ _ hlt,
                  vmaAt_set_ne _ _ _ _ (Ne.symm hji)]
                intro _ huj
                have hd := hdisj k hk j hj hkj hused huj
                simp only [VMAdisj, vmaTrimEnd,
                  sub64_eq_of_le hlenv (by omega)] at hd ⊢
                omega
          · subst hji
            split
            · rw [vmaAt_set_self _ _ _ _ hlt]
              intro _ hcon
              simp [vmaFree] at hcon
            · split
              · rename_i hcase2
                rename_i hcase1
                rw [vmaAt_set_self _ _ _ _ hlt,
                  vmaAt_set_ne _ _ _ _ (Ne.symm hki)]
                intro huk _
                have hltlen : len < (vmaAt p j).len := by
                  rcases Nat.lt_or_ge len (vmaAt p j).len with h | h
                  · exact h
                  · exact absurd (And.intro hcase2 (le_antisymm hlenv h))
                      hcase1
                have hd := hdisj k hk j hj hkj huk hused
                simp only [VMAdisj, vmaTrimStart,
                  add64_eq_of_lt (show (vmaAt p j).addr + len < W64 by omega),
                  sub64_eq_of_le (le_of_lt hltlen) (by omega)] at hd ⊢
                omega
              · rw [vmaAt_set_self _ _ _ _ hlt,
                  vmaAt_set_ne _ _ _ _ (Ne.symm hki)]
                intro huk _
                have hd := hdisj k hk j hj hkj huk hused
                simp only [VMAdisj, vmaTrimEnd,
                  sub64_eq_of_le hlenv (by omega)] at hd ⊢
                omega
          · split
            · rw [vmaAt_set_ne _ _ _ _ (Ne.symm hki),
                vmaAt_set_ne _ _ _ _ (Ne.symm hji)]
              exact hdisj k hk j hj hkj
            · split
              · rw [vmaAt_set_ne _ _ _ _ (Ne.symm hki),
                  vmaAt_set_ne _ _ _ _ (Ne.symm hji)]
                exact hdisj k hk j hj hkj
              · rw [vmaAt_set_ne _ _ _ _ (Ne.symm hki),
                  vmaAt_set_ne _ _ _ _ (Ne.symm hji)]
                exact hdisj k hk j hj hkj
  · intro va allocOk mapOk
    unfold handle_mmap_fault
    split
    · exact ⟨hlen, hok, hdisj⟩
    · split
      · exact ⟨hlen, hok, hdisj⟩
      · split
        · exact ⟨hlen, hok, hdisj⟩
        · split
          · exact ⟨hlen, hok, hdisj⟩
          · exact ⟨hlen, hok, hdisj⟩

instance (v : VMA) : Decidable (VMAok v) := by
  unfold VMAok
  infer_instance

instance (v w : VMA) : Decidable (VMAdisj v w) := by
  unfold VMAdisj
  infer_instance

instance (p : MProc) : Decidable (VMAinv p) := by
  unfold VMAinv
  infer_instance

/-- Counterexample state for C8: one well-formed 2-page shared mapping just
below `TRAPFRAME`, no pages present. -/
def mmapCexProc : MProc :=
  MProc.mk (VMA.mk true (TRAPFRAME - 2 * PGSIZE) (2 * PGSIZE) 3 1 0 0 ::
    List.replicate 15 defaultVMA) PGSIZE [] [8192]

/-- Counterexample to C8 as stated: `sys_munmap` accepts a length that is
not a multiple of `PGSIZE` (here 100), succeeds, and leaves a used VMA
whose `va_start` is no longer page-aligned — the invariant does not hold
after every munmap. -/
theorem munmap_unaligned_breaks_invariant :
    VMAinv mmapCexProc ∧
    (sys_munmap (TRAPFRAME - 2 * PGSIZE) 100 mmapCexProc).1 = 0 ∧
    ¬ VMAinv (sys_munmap (TRAPFRAME - 2 * PGSIZE) 100 mmapCexProc).2.1 := by
  decide

/-- A one-slot state for the C8 witness. -/
def mpOne : MProc :=
  MProc.mk (VMA.mk true (TRAPFRAME - 2 * PGSIZE) (2 * PGSIZE) 3 1 0 0 ::
    List.replicate 15 defaultVMA) PGSIZE [] [8192]

/-- Witness for C8 (amended) at concrete inputs: a fresh `mmap`, an aligned
partial `munmap`, and a page fault all preserve the invariant. -/
theorem vma_invariant_preserved_witness :
    VMAinv (sys_mmap 0 8192 3 1 true true true 0 0 mpOne).2 ∧
    VMAinv (sys_munmap (TRAPFRAME - 2 * PGSIZE) PGSIZE mpOne).2.1 ∧
    VMAinv (handle_mmap_fault (TRAPFRAME - PGSIZE) true true mpOne).2 := by
  refine ⟨(vma_invariant_preserved (by decide)).1 0 8192 3 1 true true true 0 0
      (by decide), ?_, (vma_invariant_preserved (by decide)).2.2
      (TRAPFRAME - PGSIZE) true true⟩
  refine (vma_invariant_preserved (by decide)).2.1 (TRAPFRAME - 2 * PGSIZE)
    PGSIZE (by decide) ?_
  intro i hi
  have h0 : findVMAIdx mpOne (TRAPFRAME - 2 * PGSIZE) = some 0 := by decide
  rw [h0] at hi
  obtain rfl : 0 = i := Option.some.inj hi
  decide

/-- The pages of the unmapped range that currently have a valid PTE. -/
def presentPages (p : MProc) (addr len : Nat) : List Nat :=
  (pageRange (PGROUNDDOWN addr) (PGROUNDUP64 (add64 addr len))).filter
    (fun va => p.pagetable.contains va)

theorem collect_go (pres : Nat → Bool) :
    ∀ (l : List Nat) (acc : List Nat),
    l.foldl (fun acc va => if pres va = true then
        (if acc.length < 16 then acc ++ [va] else acc) else acc) acc
      = acc ++ (l.filter pres).take (16 - acc.length) := by
  intro l
  induction l with
  | nil => intro acc; simp
  | cons va l ih =>
    intro acc
    rw [List.foldl_cons]
    by_cases hp : pres va = true
    · rw [if_pos hp, List.filter_cons_of_pos hp]
      by_cases hl : acc.length < 16
      · rw [if_pos hl, ih]
        rw [show (16 - acc.length) = (16 - (acc ++ [va]).length) + 1 by
          simp only [List.length_append, List.length_cons, List.length_nil]
          omega]
        rw [List.take_succ_cons, List.append_cons]
        simp
      · rw [if_neg hl, ih, show (16 - acc.length) = 0 by omega]
        simp
    · rw [if_neg hp, List.filter_cons_of_neg hp, ih]

/-- With a `MAP_SHARED` VMA, the `dirty_pages` loop records exactly the
first sixteen present pages of the range. -/
theorem collectDirty_shared {p : MProc} {vma : VMA}
    (hs : vma.flags = MAP_SHARED) (start endv : Nat) :
    collectDirty p vma start endv =
      ((pageRange start endv).filter
        (fun va => p.pagetable.contains va)).take 16 := by
  unfold collectDirty
  have hbody : (fun (acc : List Nat) (va : Nat) =>
      if p.pagetable.contains va then
        if vma.flags = MAP_SHARED then
          if acc.length < 16 then acc ++ [va] else acc
        else acc
      else acc) = (fun (acc : List Nat) (va : Nat) =>
      if (p.pagetable.contains va) = true then
        if acc.length < 16 then acc ++ [va] else acc
      else acc) := by
    funext acc va
    rw [hs]
    simp
  rw [hbody, collect_go]
  simp only [List.nil_append, List.length_nil, Nat.sub_zero]

/-- Only write events appear between `begin_op` and `end_op`. -/
def evWrite : MEv → Bool
  | MEv.writeEv _ _ _ => true
  | _ => false

theorem writeEvents_mem {p : MProc} {vma : VMA} {dirty : List Nat} {e : MEv}
    (h : e ∈ writeEvents p vma dirty) :
    ∃ va ∈ dirty, vma.offset + sub64 va vma.addr < p.files.getD vma.f 0 ∧
      e = MEv.writeEv vma.f (vma.offset + sub64 va vma.addr)
        (min PGSIZE (p.files.getD vma.f 0 -
          (vma.offset + sub64 va vma.addr))) := by
  unfold writeEvents at h
  obtain ⟨va, hva, hfe⟩ := List.mem_filterMap.mp h
  by_cases hoff : vma.offset + sub64 va vma.addr < p.files.getD vma.f 0
  · rw [if_pos hoff] at hfe
    exact ⟨va, hva, hoff, (Option.some.inj hfe).symm⟩
  · rw [if_neg hoff] at hfe
    cases hfe

/-- C1 (amended): a successful `sys_munmap` of a `MAP_SHARED` region (VMA
found, start/end guard satisfied) emits either no journal events (no page
of the range present at an in-file offset) or exactly one transaction:
`begin_op`, then write-backs, then `end_op`.  Every present page among the
FIRST SIXTEEN present pages of the range whose mapped offset lies below the
inode's current size gets a write of `min(PGSIZE, size - offset)` bytes at
its mapped offset; and every emitted write stays within the current inode
size (the file is never extended).  Pages beyond the sixteenth present
page are not written back — the cap forced the amendment; see the
counterexample. -/
theorem munmap_shared_writeback {p : MProc} {addr len i : Nat}
    (hfind : findVMAIdx p addr = some i)
    (hshared : (vmaAt p i).flags = MAP_SHARED)
    (hguard : addr = (vmaAt p i).addr ∨
      add64 addr len = add64 (vmaAt p i).addr (vmaAt p i).len) :
    (sys_munmap addr len p).1 = 0 ∧
    ((sys_munmap addr len p).2.2 = [] ∨
      ∃ ws, (sys_munmap addr len p).2.2 = MEv.beginOp :: ws ++ [MEv.endOp] ∧
        ws.all evWrite = true) ∧
    (∀ va ∈ (presentPages p addr len).take 16,
      (vmaAt p i).offset + sub64 va (vmaAt p i).addr
          < p.files.getD (vmaAt p i).f 0 →
      MEv.writeEv (vmaAt p i).f
        ((vmaAt p i).offset + sub64 va (vmaAt p i).addr)
        (min PGSIZE (p.files.getD (vmaAt p i).f 0 -
          ((vmaAt p i).offset + sub64 va (vmaAt p i).addr)))
        ∈ (sys_munmap addr len p).2.2) ∧
    (∀ g off nb, MEv.writeEv g off nb ∈ (sys_munmap addr len p).2.2 →
      g = (vmaAt p i).f ∧ nb ≤ PGSIZE ∧
      off + nb ≤ p.files.getD (vmaAt p i).f 0) := by
  have hguard2 : ¬(addr ≠ (vmaAt p i).addr ∧
      add64 addr len ≠ add64 (vmaAt p i).addr (vmaAt p i).len) := by
    rcases hguard with h | h
    · intro hc; exact hc.1 h
    · intro hc; exact hc.2 h
  have htr : sys_munmap addr len p =
      (0, { p with
        pagetable := p.pagetable.filter (fun va =>
          !(decide (PGROUNDDOWN addr ≤ va) &&
            decide (va < PGROUNDUP64 (add64 addr len))))
        vmas :=
          if addr = (vmaAt p i).addr ∧ len = (vmaAt p i).len then
            p.vmas.set i (vmaFree (vmaAt p i))
          else if addr = (vmaAt p i).addr then
            p.vmas.set i (vmaTrimStart (vmaAt p i) len)
          else
            p.vmas.set i (vmaTrimEnd (vmaAt p i) len) },
      if 0 < (collectDirty p (vmaAt p i) (PGROUNDDOWN addr)
          (PGROUNDUP64 (add64 addr len))).length then
        MEv.beginOp ::
          writeEvents p (vmaAt p i)
            (collectDirty p (vmaAt p i) (PGROUNDDOWN addr)
              (PGROUNDUP64 (add64 addr len))) ++ [MEv.endOp]
      else []) := by
    unfold sys_munmap
    split
    · rename_i heq2
      rw [hfind] at heq2
      cases heq2
    · rename_i i2 heq2
      rw [hfind] at heq2
      obtain rfl : i2 = i := (Option.some.inj heq2).symm
      rw [if_neg hguard2]
  have hdirty : collectDirty p (vmaAt p i) (PGROUNDDOWN addr)
      (PGROUNDUP64 (add64 addr len)) = (presentPages p addr len).take 16 :=
    collectDirty_shared hshared _ _
  rw [htr]
  refine ⟨rfl, ?_, ?_, ?_⟩
  · by_cases h0 : 0 < (collectDirty p (vmaAt p i) (PGROUNDDOWN addr)
        (PGROUNDUP64 (add64 addr len))).length
    · rw [if_pos h0]
      refine Or.inr ⟨_, rfl, ?_⟩
      rw [List.all_eq_true]
      intro e he
      obtain ⟨va, -, -, rfl⟩ := writeEvents_mem he
      rfl
    · rw [if_neg h0]
      exact Or.inl rfl
  · intro va hva hoff
    have hvamem : va ∈ collectDirty p (vmaAt p i) (PGROUNDDOWN addr)
        (PGROUNDUP64 (add64 addr len)) := by
      rw [hdirty]; exact hva
    have h0 : 0 < (collectDirty p (vmaAt p i) (PGROUNDDOWN addr)
        (PGROUNDUP64 (add64 addr len))).length :=
      List.length_pos.mpr (List.ne_nil_of_mem hvamem)
    rw [if_pos h0]
    have hmem : MEv.writeEv (vmaAt p i).f
        ((vmaAt p i).offset + sub64 va (vmaAt p i).addr)
        (min PGSIZE (p.files.getD (vmaAt p i).f 0 -
          ((vmaAt p i).offset + sub64 va (vmaAt p i).addr)))
        ∈ writeEvents p (vmaAt p i)
          (collectDirty p (vmaAt p i) (PGROUNDDOWN addr)
            (PGROUNDUP64 (add64 addr len))) := by
      unfold writeEvents
      refine List.mem_filterMap.mpr ⟨va, hvamem, ?_⟩
      rw [if_pos hoff]
    exact List.mem_cons_of_mem _ (List.mem_append_left _ hmem)
  · intro g off nb hmem
    by_cases h0 : 0 < (collectDirty p (vmaAt p i) (PGROUNDDOWN addr)
        (PGROUNDUP64 (add64 addr len))).length
    · rw [if_pos h0] at hmem
      rcases List.mem_cons.mp hmem with hc | hc
      · cases hc
      · rcases List.mem_append.mp hc with hc2 | hc2
        · obtain ⟨va, -, hoff, heq⟩ := writeEvents_mem hc2
          obtain ⟨rfl, rfl, rfl⟩ : g = (vmaAt p i).f ∧
              off = (vmaAt p i).offset + sub64 va (vmaAt p i).addr ∧
              nb = min PGSIZE (p.files.getD (vmaAt p i).f 0 -
                ((vmaAt p i).offset + sub64 va (vmaAt p i).addr)) := by
            cases heq
            exact ⟨rfl, rfl, rfl⟩
          refine ⟨rfl, min_le_left _ _, ?_⟩
          have := min_le_right PGSIZE (p.files.getD (vmaAt p i).f 0 -
            ((vmaAt p i).offset + sub64 va (vmaAt p i).addr))
          omega
        · rcases List.mem_singleton.mp hc2 with hc3
          cases hc3
    · rw [if_neg h0] at hmem
      cases hmem

/-- Counterexample state for C1: a 17-page `MAP_SHARED` mapping with all
17 pages present and a file large enough that every page needs
write-back. -/
def wbCexProc : MProc :=
  MProc.mk (VMA.mk true (TRAPFRAME - 17 * PGSIZE) (17 * PGSIZE) 3 1 0 0 ::
    List.replicate 15 defaultVMA) PGSIZE
    ((List.range 17).map (fun k => TRAPFRAME - 17 * PGSIZE + k * PGSIZE))
    [17 * PGSIZE]

/-- Counterexample to C1 as stated: unmapping the whole 17-page region
succeeds, the 17th page is present and its mapped offset lies below the
inode size, yet the journal trace contains no write at that offset — the
fixed 16-entry `dirty_pages` array silently drops it. -/
theorem munmap_writeback_cap_counterexample :
    (TRAPFRAME - 17 * PGSIZE + 16 * PGSIZE)
      ∈ presentPages wbCexProc (TRAPFRAME - 17 * PGSIZE) (17 * PGSIZE) ∧
    (vmaAt wbCexProc 0).offset +
      sub64 (TRAPFRAME - 17 * PGSIZE + 16 * PGSIZE) (vmaAt wbCexProc 0).addr
      < wbCexProc.files.getD (vmaAt wbCexProc 0).f 0 ∧
    (sys_munmap (TRAPFRAME - 17 * PGSIZE) (17 * PGSIZE) wbCexProc).1 = 0 ∧
    ((sys_munmap (TRAPFRAME - 17 * PGSIZE) (17 * PGSIZE) wbCexProc).2.2.all
      (fun e => match e with
        | MEv.writeEv _ off _ => decide (off ≠ 16 * PGSIZE)
        | _ => true)) = true := by
  decide

/-- A one-present-page state for the C1 witness. -/
def mpW : MProc :=
  MProc.mk (VMA.mk true (TRAPFRAME - 2 * PGSIZE) (2 * PGSIZE) 3 1 0 0 ::
    List.replicate 15 defaultVMA) PGSIZE [TRAPFRAME - 2 * PGSIZE] [PGSIZE]

/-- Witness for C1 (amended): unmapping a shared one-present-page mapping
succeeds and its write-back event is in the trace. -/
theorem munmap_shared_writeback_witness :
    (sys_munmap (TRAPFRAME - 2 * PGSIZE) (2 * PGSIZE) mpW).1 = 0 ∧
    MEv.writeEv 0 0 PGSIZE
      ∈ (sys_munmap (TRAPFRAME - 2 * PGSIZE) (2 * PGSIZE) mpW).2.2 := by
  have h := @munmap_shared_writeback mpW (TRAPFRAME - 2 * PGSIZE)
    (2 * PGSIZE) 0 (by decide) (by decide) (Or.inl (by decide))
  refine ⟨h.1, ?_⟩
  have hc := h.2.2.1 (TRAPFRAME - 2 * PGSIZE) (by decide) (by decide)
  have heq : MEv.writeEv (vmaAt mpW 0).f
      ((vmaAt mpW 0).offset +
        sub64 (TRAPFRAME - 2 * PGSIZE) (vmaAt mpW 0).addr)
      (min PGSIZE (mpW.files.getD (vmaAt mpW 0).f 0 -
        ((vmaAt mpW 0).offset +
          sub64 (TRAPFRAME - 2 * PGSIZE) (vmaAt mpW 0).addr)))
      = MEv.writeEv 0 0 PGSIZE := by decide
  rw [heq] at hc
  exact hc

end Mmap

/-! # BCACHE: the block buffer cache (kernel/bio.c)

Thirty buffers hashed into thirteen buckets by `(dev + blockno) % 13`;
`binit` zero-initialises every buffer (the `bcache` global lives in .bss,
so all identities start as `(0,0)`) and links them all into bucket 0,
pushing at the head.  `bget` searches the home bucket head-first for a
hit, then tail-first for a `refcnt == 0` victim, re-checks under the
global lock, and finally steals a victim from another bucket, relinking
it at the home bucket's head.  The sleep-lock is the `locked` flag: an
operation that would block in `acquiresleep` is simply not an enabled
step.  `pins` is a ghost counter of outstanding `bpin`s; the step
relation encodes the callers' contracts — `brelse` and `bpin` are called
with the sleep-lock held (`brelse` panics otherwise; the journal's
`log_write` pins a buffer it has from `bread`), and `bunpin` undoes an
earlier `bpin`.  `NBUF = 30` is modelled from the spec (param.h is absent
from the sources). -/

namespace BCache

def NBUF : Nat := 30

def NBUCKETS : Nat := 13

/-- `hash(dev, blockno)` from kernel/bio.c. -/
def bhash (dev blockno : Nat) : Nat := (dev + blockno) % NBUCKETS

/-- One `struct buf` (data page and sleep-lock internals aside): `locked`
is the sleep-lock state, `pins` the ghost count of outstanding pins. -/
structure Buf where
  dev : Nat
  blockno : Nat
  valid : Nat
  refcnt : Int
  locked : Bool
  pins : Nat
deriving DecidableEq, Repr

def defaultBuf : Buf :=
  { dev := 0, blockno := 0, valid := 0, refcnt := 0, locked := false, pins := 0 }

/-- The cache state: the buffer pool and the bucket lists (each a list of
buffer indices, head first). -/
structure BState where
  bufs : List Buf
  buckets : List (List Nat)
deriving DecidableEq, Repr

def bufAt (s : BState) (i : Nat) : Buf := s.bufs.getD i defaultBuf

def bucketAt (s : BState) (h : Nat) : List Nat := s.buckets.getD h []

/-- `binit()`: zeroed buffers, all pushed at the head of bucket 0 in index
order, the other twelve buckets empty. -/
def binit : BState :=
  { bufs := List.replicate NBUF defaultBuf
    buckets := (List.range NBUF).reverse :: List.replicate (NBUCKETS - 1) [] }

def setBuf (s : BState) (i : Nat) (b : Buf) : BState :=
  { s with bufs := s.bufs.set i b }

/-- The hit scan of `bget`: head-first search of the home bucket for the
identity. -/
def hitScan (s : BState) (dev blockno : Nat) (h : Nat) : Option Nat :=
  (bucketAt s h).find? (fun i =>
    (bufAt s i).dev == dev && (bufAt s i).blockno == blockno)

/-- The victim scan of `bget`: tail-first (`head.prev` direction) search
for a `refcnt == 0` buffer. -/
def freeScan (s : BState) (h : Nat) : Option Nat :=
  (bucketAt s h).reverse.find? (fun i => (bufAt s i).refcnt == 0)

/-- The cross-bucket loop of `bget`: buckets `0..NBUCKETS-1` skipping the
home bucket, victim scan in each. -/
def evictScan (s : BState) (h : Nat) : Option (Nat × Nat) :=
  ((List.range NBUCKETS).filter (fun j => j ≠ h)).findSome?
    (fun j => (freeScan s j).map (fun v => (j, v)))

/-- `b->refcnt++` plus `acquiresleep` of the hit path. -/
def bumpBuf (b : Buf) : Buf :=
  { b with refcnt := b.refcnt + 1, locked := true }

/-- Identity reassignment of the eviction paths: new `(dev, blockno)`,
`valid = 0`, `refcnt = 1`, plus `acquiresleep`. -/
def reassignBuf (dev blockno : Nat) (b : Buf) : Buf :=
  { dev := dev, blockno := blockno, valid := 0, refcnt := 1, locked := true,
    pins := b.pins }

/-- Unlink buffer `v` from bucket `src` and push it at the head of bucket
`dst` (the two-bucket relink of the steal path; `src ≠ dst` in `bget`). -/
def moveBuf (s : BState) (v : Nat) (src dst : Nat) : BState :=
  BState.mk s.bufs
    ((s.buckets.set src ((bucketAt s src).erase v)).set dst
      (v :: bucketAt s dst))

/-- `bget(dev, blockno)`: hit, free-in-home-bucket (checked twice, the
second time under `bcache.lock`), or steal from another bucket; `none` is
the `panic("bget: no buffers")` case. -/
def bget (dev blockno : Nat) (s : BState) : Option (BState × Nat) :=
  match hitScan s dev blockno (bhash dev blockno) with
  | some i => some (setBuf s i (bumpBuf (bufAt s i)), i)
  | none =>
    match freeScan s (bhash dev blockno) with
    | some i => some (setBuf s i (reassignBuf dev blockno (bufAt s i)), i)
    | none =>
      match freeScan s (bhash dev blockno) with
      | some i => some (setBuf s i (reassignBuf dev blockno (bufAt s i)), i)
      | none =>
        match evictScan s (bhash dev blockno) with
        | some (j, v) =>
          some (setBuf (moveBuf s v j (bhash dev blockno)) v
            (reassignBuf dev blockno (bufAt s v)), v)
        | none => none

def validateBuf (b : Buf) : Buf := { b with valid := 1 }

/-- `bread(dev, blockno)`: `bget`, then a synchronous disk read when the
buffer is not valid.  The boolean records whether the disk was read. -/
def bread (dev blockno : Nat) (s : BState) : Option (BState × Nat × Bool) :=
  match bget dev blockno s with
  | none => none
  | some (s1, i) =>
    if (bufAt s1 i).valid = 0 then
      some (setBuf s1 i (validateBuf (bufAt s1 i)), i, true)
    else
      some (s1, i, false)

def brelseBuf (b : Buf) : Buf :=
  { b with locked := false, refcnt := b.refcnt - 1 }

def bpinBuf (b : Buf) : Buf :=
  { b with refcnt := b.refcnt + 1, pins := b.pins + 1 }

def bunpinBuf (b : Buf) : Buf :=
  { b with refcnt := b.refcnt - 1, pins := b.pins - 1 }

/-- `brelse(b)`: `releasesleep` plus `refcnt--` under the bucket lock. -/
def brelse (i : Nat) (s : BState) : BState := setBuf s i (brelseBuf (bufAt s i))

def bpin (i : Nat) (s : BState) : BState := setBuf s i (bpinBuf (bufAt s i))

def bunpin (i : Nat) (s : BState) : BState := setBuf s i (bunpinBuf (bufAt s i))

/-- One sequential cache operation.  A `bget`/`bread` whose returned
buffer is sleep-locked would block in `acquiresleep` and is not an
enabled step.  `brelse` requires the sleep-lock (it panics otherwise);
`bpin` is called by the journal on a buffer it holds locked; `bunpin`
undoes an earlier `bpin`. -/
inductive BStep : BState → BState → Prop
  | get {s s1 : BState} (dev blockno : Nat) {i : Nat}
      (h : bget dev blockno s = some (s1, i))
      (hfree : (bufAt s i).locked = false) : BStep s s1
  | read {s s1 : BState} (dev blockno : Nat) {i : Nat} {r : Bool}
      (h : bread dev blockno s = some (s1, i, r))
      (hfree : (bufAt s i).locked = false) : BStep s s1
  | rel {s : BState} (i : Nat) (hheld : (bufAt s i).locked = true) :
      BStep s (brelse i s)
  | pin {s : BState} (i : Nat) (hheld : (bufAt s i).locked = true) :
      BStep s (bpin i s)
  | unpin {s : BState} (i : Nat) (hpin : 1 ≤ (bufAt s i).pins) :
      BStep s (bunpin i s)

inductive BReach : BState → Prop
  | init : BReach binit
  | step {s s1 : BState} (h : BReach s) (hs : BStep s s1) : BReach s1

/-- Does buffer `i` claim identity `(d, b)`?  (Boolean, for scans.) -/
def claimsB (s : BState) (d b : Nat) (i : Nat) : Bool :=
  (bufAt s i).dev == d && (bufAt s i).blockno == b

/-- The claimers of `(d, b)` in their home bucket, in list order. -/
def claimList (s : BState) (d b : Nat) : List Nat :=
  (bucketAt s (bhash d b)).filter (claimsB s d b)

/-- The cache invariant.  `tail_inactive` is the ordering fact that makes
uniqueness work: among same-identity buffers in a bucket, only the first
(the one every hit scan returns) can be active (`refcnt > 0` or
`valid = 1`). -/
structure BInv (s : BState) : Prop where
  lbufs : s.bufs.length = NBUF
  lbuckets : s.buckets.length = NBUCKETS
  valid01 : ∀ i, i < NBUF → (bufAt s i).valid = 0 ∨ (bufAt s i).valid = 1
  refeq : ∀ i, i < NBUF → (bufAt s i).refcnt =
    (if (bufAt s i).locked then 1 else 0) + (bufAt s i).pins
  member_lt : ∀ h, h < NBUCKETS → ∀ i ∈ bucketAt s h, i < NBUF
  member_hash : ∀ h, h < NBUCKETS → ∀ i ∈ bucketAt s h,
    bhash (bufAt s i).dev (bufAt s i).blockno = h
  contain : ∀ i, i < NBUF →
    i ∈ bucketAt s (bhash (bufAt s i).dev (bufAt s i).blockno)
  nodup : ∀ h, h < NBUCKETS → (bucketAt s h).Nodup
  tail_inactive : ∀ d b, ∀ j ∈ (claimList s d b).tail,
    (bufAt s j).refcnt = 0 ∧ (bufAt s j).valid = 0

theorem bufAt_setBuf_self {s : BState} {i : Nat} (b : Buf)
    (h : i < s.bufs.length) : bufAt (setBuf s i b) i = b :=
  listGetD_set_self _ _ _ _ h

theorem bufAt_setBuf_ne {s : BState} {i j : Nat} (b : Buf) (h : i ≠ j) :
    bufAt (setBuf s i b) j = bufAt s j :=
  listGetD_set_ne _ _ _ h

theorem bucketAt_setBuf {s : BState} {i : Nat} {b : Buf} {h : Nat} :
    bucketAt (setBuf s i b) h = bucketAt s h := rfl

theorem bufAt_moveBuf {s : BState} {v src dst i : Nat} :
    bufAt (moveBuf s v src dst) i = bufAt s i := rfl

theorem bucketAt_moveBuf_dst {s : BState} {v src dst : Nat}
    (hlen : dst < s.buckets.length) :
    bucketAt (moveBuf s v src dst) dst = v :: bucketAt s dst := by
  unfold moveBuf bucketAt
  exact listGetD_set_self _ _ _ _ (by simpa using hlen)

theorem bucketAt_moveBuf_src {s : BState} {v src dst : Nat} (hne : dst ≠ src)
    (hlen : src < s.buckets.length) :
    bucketAt (moveBuf s v src dst) src = (bucketAt s src).erase v := by
  unfold moveBuf bucketAt
  rw [listGetD_set_ne _ _ _ hne]
  exact listGetD_set_self _ _ _ _ hlen

theorem bucketAt_moveBuf_other {s : BState} {v src dst h : Nat}
    (h1 : dst ≠ h) (h2 : src ≠ h) :
    bucketAt (moveBuf s v src dst) h = bucketAt s h := by
  unfold moveBuf bucketAt
  rw [listGetD_set_ne _ _ _ h1, listGetD_set_ne _ _ _ h2]

theorem bhash_lt (dev blockno : Nat) : bhash dev blockno < NBUCKETS :=
  Nat.mod_lt _ (by norm_num [NBUCKETS])

theorem find?_eq_head_filter {α : Type} (p : α → Bool) (l : List α) :
    l.find? p = (l.filter p).head? := by
  induction l with
  | nil => rfl
  | cons x xs ih =>
    by_cases hp : p x = true
    · rw [List.find?_cons_of_pos _ hp, List.filter_cons_of_pos hp]
      rfl
    · rw [List.find?_cons_of_neg _ (by simpa using hp),
        List.filter_cons_of_neg (by simpa using hp)]
      exact ih

theorem tail_mem_of_sublist {α : Type} {l1 l2 : List α} (h : l1.Sublist l2) :
    ∀ x ∈ l1.tail, x ∈ l2.tail := by
  induction h with
  | slnil => intro x hx; cases hx
  | cons a h2 ih =>
    intro x hx
    have hx2 := ih x hx
    simp only [List.tail_cons]
    exact List.mem_of_mem_tail hx2
  | cons₂ a h2 ih =>
    intro x hx
    simp only [List.tail_cons] at hx ⊢
    exact h2.subset hx

theorem filter_sublist_of_imp {α : Type} {p q : α → Bool} :
    ∀ (l : List α), (∀ x ∈ l, p x = true → q x = true) →
    (l.filter p).Sublist (l.filter q) := by
  intro l
  induction l with
  | nil => intro _; exact List.Sublist.refl _
  | cons x xs ih =>
    intro himp
    by_cases hp : p x = true
    · have hq : q x = true := himp x (List.mem_cons_self _ _) hp
      rw [List.filter_cons_of_pos hp, List.filter_cons_of_pos hq]
      exact (ih (fun y hy => himp y (List.mem_cons_of_mem _ hy))).cons₂ x
    · rw [List.filter_cons_of_neg (by simpa using hp)]
      by_cases hq : q x = true
      · rw [List.filter_cons_of_pos hq]
        exact (ih (fun y hy => himp y (List.mem_cons_of_mem _ hy))).cons x
      · rw [List.filter_cons_of_neg (by simpa using hq)]
        exact ih (fun y hy => himp y (List.mem_cons_of_mem _ hy))

theorem hitScan_some {s : BState} {d b hh i : Nat}
    (h : hitScan s d b hh = some i) :
    i ∈ bucketAt s hh ∧ (bufAt s i).dev = d ∧ (bufAt s i).blockno = b := by
  have h1 := List.find?_some h
  have h2 := List.mem_of_find?_eq_some h
  simp only [Bool.and_eq_true, beq_iff_eq] at h1
  exact ⟨h2, h1.1, h1.2⟩

theorem hitScan_none {s : BState} {d b hh : Nat}
    (h : hitScan s d b hh = none) :
    ∀ k ∈ bucketAt s hh, ¬((bufAt s k).dev = d ∧ (bufAt s k).blockno = b) := by
  intro k hk hc
  have := List.find?_eq_none.mp h k hk
  simp only [Bool.and_eq_true, beq_iff_eq] at this
  exact this ⟨hc.1, hc.2⟩

theorem freeScan_some {s : BState} {hh v : Nat}
    (h : freeScan s hh = some v) :
    v ∈ bucketAt s hh ∧ (bufAt s v).refcnt = 0 := by
  have h1 := List.find?_some h
  have h2 := List.mem_of_find?_eq_some h
  rw [List.mem_reverse] at h2
  rw [beq_iff_eq] at h1
  exact ⟨h2, h1⟩

theorem evictScan_some {s : BState} {hh j v : Nat}
    (h : evictScan s hh = some (j, v)) :
    j < NBUCKETS ∧ j ≠ hh ∧ freeScan s j = some v := by
  obtain ⟨a, ha, hfa⟩ := List.exists_of_findSome?_eq_some h
  rw [List.mem_filter] at ha
  obtain ⟨har, hane⟩ := ha
  rw [List.mem_range] at har
  cases hfs : freeScan s a with
  | none => rw [hfs] at hfa; cases hfa
  | some w =>
    rw [hfs] at hfa
    have hfa2 : (a, w) = (j, v) := Option.some.inj hfa
    injection hfa2 with h1 h2
    subst h1
    subst h2
    exact ⟨har, by simpa using hane, hfs⟩

/-- The three ways `bget` can succeed. -/
theorem bget_cases {s : BState} {d b : Nat} {s1 : BState} {i : Nat}
    (h : bget d b s = some (s1, i)) :
    (hitScan s d b (bhash d b) = some i ∧
      s1 = setBuf s i (bumpBuf (bufAt s i))) ∨
    (hitScan s d b (bhash d b) = none ∧ freeScan s (bhash d b) = some i ∧
      s1 = setBuf s i (reassignBuf d b (bufAt s i))) ∨
    (hitScan s d b (bhash d b) = none ∧ freeScan s (bhash d b) = none ∧
      ∃ j, evictScan s (bhash d b) = some (j, i) ∧
        s1 = setBuf (moveBuf s i j (bhash d b)) i
          (reassignBuf d b (bufAt s i))) := by
  unfold bget at h
  cases hhit : hitScan s d b (bhash d b) with
  | some k =>
    rw [hhit] at h
    simp only [Option.some.injEq, Prod.mk.injEq] at h
    obtain ⟨h1, rfl⟩ := h
    exact Or.inl ⟨rfl, h1.symm⟩
  | none =>
    rw [hhit] at h
    cases hfs : freeScan s (bhash d b) with
    | some k =>
      rw [hfs] at h
      simp only [Option.some.injEq, Prod.mk.injEq] at h
      obtain ⟨h1, rfl⟩ := h
      exact Or.inr (Or.inl ⟨rfl, rfl, h1.symm⟩)
    | none =>
      rw [hfs] at h
      cases hev : evictScan s (bhash d b) with
      | none => rw [hev] at h; cases h
      | some jv =>
        rw [hev] at h
        obtain ⟨j, v⟩ := jv
        simp only [Option.some.injEq, Prod.mk.injEq] at h
        obtain ⟨h1, rfl⟩ := h
        exact Or.inr (Or.inr ⟨rfl, rfl, j, rfl, h1.symm⟩)


theorem hitScan_eq_head_claimList (s : BState) (d b : Nat) :
    hitScan s d b (bhash d b) = (claimList s d b).head? := by
  unfold hitScan claimList claimsB
  exact find?_eq_head_filter _ _

theorem hitScan_none_claims {s : BState} {d b : Nat}
    (h : hitScan s d b (bhash d b) = none) :
    ∀ k ∈ bucketAt s (bhash d b), claimsB s d b k = false := by
  intro k hk
  have h2 := List.find?_eq_none.mp h k hk
  exact Bool.eq_false_iff.mpr h2

theorem tail_all_false_of_all_eq {l : List Nat} {v : Nat} (hnd : l.Nodup)
    (hall : ∀ x ∈ l, x = v) : ∀ j ∈ l.tail, False := by
  intro j hj
  cases l with
  | nil => cases hj
  | cons x t =>
    simp only [List.tail_cons] at hj
    have hx : x = v := hall x (List.mem_cons_self _ _)
    have hjv : j = v := hall j (List.mem_cons_of_mem _ hj)
    rw [List.nodup_cons] at hnd
    exact hnd.1 (by rw [hx, ← hjv]; exact hj)

theorem claimList_nodup {s : BState} (hinv : BInv s) (d b : Nat) :
    (claimList s d b).Nodup :=
  (hinv.nodup _ (bhash_lt d b)).filter _

theorem mem_claimList {s : BState} {d b j : Nat}
    (h : j ∈ claimList s d b) :
    j ∈ bucketAt s (bhash d b) ∧ (bufAt s j).dev = d ∧
      (bufAt s j).blockno = b := by
  rw [claimList, List.mem_filter] at h
  obtain ⟨h1, h2⟩ := h
  unfold claimsB at h2
  simp only [Bool.and_eq_true, beq_iff_eq] at h2
  exact ⟨h1, h2.1, h2.2⟩

/-- Updating one buffer without changing its identity preserves the
invariant, provided the new contents are sound and one of: the old buffer
was active, the new buffer is inactive, or the buffer is the head claimer
of its identity. -/
theorem binv_setBuf_same {s : BState} (hinv : BInv s) {i : Nat}
    (hi : i < NBUF) {bn : Buf}
    (hdev : bn.dev = (bufAt s i).dev) (hbno : bn.blockno = (bufAt s i).blockno)
    (hval : bn.valid = 0 ∨ bn.valid = 1)
    (href : bn.refcnt = (if bn.locked then 1 else 0) + bn.pins)
    (hact : 1 ≤ (bufAt s i).refcnt ∨ (bufAt s i).valid = 1 ∨
      (bn.refcnt = 0 ∧ bn.valid = 0) ∨
      (claimList s (bufAt s i).dev (bufAt s i).blockno).head? = some i) :
    BInv (setBuf s i bn) := by
  have hlt : i < s.bufs.length := by rw [hinv.lbufs]; exact hi
  have hclaims : ∀ d2 b2 j, claimsB (setBuf s i bn) d2 b2 j = claimsB s d2 b2 j := by
    intro d2 b2 j
    by_cases hji : j = i
    · subst hji
      unfold claimsB
      rw [bufAt_setBuf_self _ hlt, hdev, hbno]
    · unfold claimsB
      rw [bufAt_setBuf_ne _ (Ne.symm hji)]
  have hcl : ∀ d2 b2, claimList (setBuf s i bn) d2 b2 = claimList s d2 b2 := by
    intro d2 b2
    unfold claimList
    rw [show bucketAt (setBuf s i bn) (bhash d2 b2) = bucketAt s (bhash d2 b2)
      from rfl]
    exact List.filter_congr (fun x _ => hclaims d2 b2 x)
  refine ⟨by simp only [setBuf, List.length_set]; exact hinv.lbufs,
    hinv.lbuckets, ?_, ?_, hinv.member_lt, ?_, ?_, hinv.nodup, ?_⟩
  · intro k hk
    by_cases hki : k = i
    · subst hki
      rw [bufAt_setBuf_self _ hlt]
      exact hval
    · rw [bufAt_setBuf_ne _ (Ne.symm hki)]
      exact hinv.valid01 k hk
  · intro k hk
    by_cases hki : k = i
    · subst hki
      rw [bufAt_setBuf_self _ hlt]
      exact href
    · rw [bufAt_setBuf_ne _ (Ne.symm hki)]
      exact hinv.refeq k hk
  · intro h hh k hk
    by_cases hki : k = i
    · subst hki
      rw [bufAt_setBuf_self _ hlt, hdev, hbno]
      exact hinv.member_hash h hh k hk
    · rw [bufAt_setBuf_ne _ (Ne.symm hki)]
      exact hinv.member_hash h hh k hk
  · intro k hk
    by_cases hki : k = i
    · subst hki
      rw [bufAt_setBuf_self _ hlt, hdev, hbno]
      exact hinv.contain k hk
    · rw [bufAt_setBuf_ne _ (Ne.symm hki)]
      exact hinv.contain k hk
  · intro d2 b2 j hj
    rw [hcl] at hj
    have hold := hinv.tail_inactive d2 b2 j hj
    by_cases hji : j = i
    · subst hji
      rcases hact with ha | ha | ha | ha
      · exfalso
        rw [hold.1] at ha
        omega
      · exfalso
        rw [hold.2] at ha
        cases ha
      · rw [bufAt_setBuf_self _ hlt]
        exact ha
      · exfalso
        have hjm := List.mem_of_mem_tail hj
        obtain ⟨-, hd2, hb2⟩ := mem_claimList hjm
        rw [← hd2, ← hb2] at hj
        rw [← hd2, ← hb2] at hjm
        have hnd : (claimList s (bufAt s j).dev (bufAt s j).blockno).Nodup :=
          claimList_nodup hinv _ _
        cases hc : claimList s (bufAt s j).dev (bufAt s j).blockno with
        | nil =>
          rw [hc] at hjm
          cases hjm
        | cons x t =>
          rw [hc] at ha hj hnd
          simp only [List.head?_cons, Option.some.injEq] at ha
          simp only [List.tail_cons] at hj
          rw [List.nodup_cons] at hnd
          exact hnd.1 (ha ▸ hj)
    · rw [bufAt_setBuf_ne _ (Ne.symm hji)]
      exact hold


theorem inactive_fields {s : BState} (hinv : BInv s) {v : Nat} (hv : v < NBUF)
    (h0 : (bufAt s v).refcnt = 0) :
    (bufAt s v).locked = false ∧ (bufAt s v).pins = 0 := by
  have hre := hinv.refeq v hv
  rw [h0] at hre
  cases hcl : (bufAt s v).locked with
  | false =>
    refine ⟨rfl, ?_⟩
    rw [hcl] at hre
    simp at hre
    omega
  | true =>
    exfalso
    rw [hcl] at hre
    simp at hre
    omega

/-- Reassigning a free buffer of the home bucket (the in-bucket eviction
path of `bget`) preserves the invariant. -/
theorem binv_reassign_inplace {s : BState} {d b v : Nat} (hinv : BInv s)
    (hhit : hitScan s d b (bhash d b) = none)
    (hfs : freeScan s (bhash d b) = some v) :
    BInv (setBuf s v (reassignBuf d b (bufAt s v))) := by
  obtain ⟨hvmem, hvref⟩ := freeScan_some hfs
  have hv : v < NBUF := hinv.member_lt _ (bhash_lt d b) v hvmem
  have hlt : v < s.bufs.length := by rw [hinv.lbufs]; exact hv
  have hvhash : bhash (bufAt s v).dev (bufAt s v).blockno = bhash d b :=
    hinv.member_hash _ (bhash_lt d b) v hvmem
  have hself : bufAt (setBuf s v (reassignBuf d b (bufAt s v))) v =
      reassignBuf d b (bufAt s v) := bufAt_setBuf_self _ hlt
  obtain ⟨hlockf, hpins0⟩ := inactive_fields hinv hv hvref
  refine ⟨by simp only [setBuf, List.length_set]; exact hinv.lbufs,
    hinv.lbuckets, ?_, ?_, hinv.member_lt, ?_, ?_, hinv.nodup, ?_⟩
  · intro k hk
    by_cases hkv : k = v
    · subst hkv
      rw [hself]
      exact Or.inl rfl
    · rw [bufAt_setBuf_ne _ (Ne.symm hkv)]
      exact hinv.valid01 k hk
  · intro k hk
    by_cases hkv : k = v
    · subst hkv
      rw [hself]
      simp only [reassignBuf, if_pos rfl, hpins0]
      rfl
    · rw [bufAt_setBuf_ne _ (Ne.symm hkv)]
      exact hinv.refeq k hk
  · intro h hh k hk
    by_cases hkv : k = v
    · subst hkv
      rw [hself]
      have hh2 : bhash (bufAt s k).dev (bufAt s k).blockno = h :=
        hinv.member_hash h hh k hk
      show bhash d b = h
      rw [← hh2]
      exact hvhash.symm
    · rw [bufAt_setBuf_ne _ (Ne.symm hkv)]
      exact hinv.member_hash h hh k hk
  · intro k hk
    by_cases hkv : k = v
    · subst hkv
      rw [hself]
      exact hvmem
    · rw [bufAt_setBuf_ne _ (Ne.symm hkv)]
      exact hinv.contain k hk
  · intro d2 b2 j hj
    by_cases hdd : d2 = d ∧ b2 = b
    · obtain ⟨rfl, rfl⟩ := hdd
      exfalso
      have hnd : (claimList (setBuf s v (reassignBuf d2 b2 (bufAt s v))) d2
          b2).Nodup := (hinv.nodup _ (bhash_lt d2 b2)).filter _
      have hall : ∀ x ∈ claimList (setBuf s v (reassignBuf d2 b2 (bufAt s v)))
          d2 b2, x = v := by
        intro x hx
        rw [claimList, List.mem_filter] at hx
        obtain ⟨hxb, hxc⟩ := hx
        by_contra hxv
        unfold claimsB at hxc
        rw [bufAt_setBuf_ne _ (Ne.symm hxv)] at hxc
        have hfalse := hitScan_none_claims hhit x hxb
        unfold claimsB at hfalse
        rw [hfalse] at hxc
        cases hxc
      exact tail_all_false_of_all_eq hnd hall j hj
    · have hsub : (claimList (setBuf s v (reassignBuf d b (bufAt s v))) d2
          b2).Sublist (claimList s d2 b2) := by
        unfold claimList
        apply filter_sublist_of_imp
        intro x hx hpx
        by_cases hxv : x = v
        · exfalso
          subst hxv
          unfold claimsB at hpx
          rw [hself] at hpx
          simp only [reassignBuf, Bool.and_eq_true, beq_iff_eq] at hpx
          exact hdd ⟨hpx.1.symm, hpx.2.symm⟩
        · unfold claimsB at hpx ⊢
          rw [bufAt_setBuf_ne _ (Ne.symm hxv)] at hpx
          exact hpx
      have hjold := tail_mem_of_sublist hsub j hj
      have hold := hinv.tail_inactive d2 b2 j hjold
      have hjv : j ≠ v := by
        intro hjv
        subst hjv
        have hjm := List.mem_of_mem_tail hj
        rw [claimList, List.mem_filter] at hjm
        have hxc := hjm.2
        unfold claimsB at hxc
        rw [hself] at hxc
        simp only [reassignBuf, Bool.and_eq_true, beq_iff_eq] at hxc
        exact hdd ⟨hxc.1.symm, hxc.2.symm⟩
      rw [bufAt_setBuf_ne _ (Ne.symm hjv)]
      exact hold


/-- Stealing a free buffer from another bucket and reassigning it (the
cross-bucket eviction path of `bget`) preserves the invariant. -/
theorem binv_reassign_move {s : BState} {d b j0 v : Nat} (hinv : BInv s)
    (hhit : hitScan s d b (bhash d b) = none)
    (hev : evictScan s (bhash d b) = some (j0, v)) :
    BInv (setBuf (moveBuf s v j0 (bhash d b)) v
      (reassignBuf d b (bufAt s v))) := by
  obtain ⟨hj0lt, hj0ne, hfs⟩ := evictScan_some hev
  obtain ⟨hvmem, hvref⟩ := freeScan_some hfs
  have hv : v < NBUF := hinv.member_lt _ hj0lt v hvmem
  have hlt : v < s.bufs.length := by rw [hinv.lbufs]; exact hv
  obtain ⟨hlockf, hpins0⟩ := inactive_fields hinv hv hvref
  have hvhash : bhash (bufAt s v).dev (bufAt s v).blockno = j0 :=
    hinv.member_hash _ hj0lt v hvmem
  have hhb : bhash d b < NBUCKETS := bhash_lt d b
  have hvnot : v ∉ bucketAt s (bhash d b) := by
    intro hmem
    have h2 := hinv.member_hash _ hhb v hmem
    rw [hvhash] at h2
    exact hj0ne h2
  have hself : bufAt (setBuf (moveBuf s v j0 (bhash d b)) v
      (reassignBuf d b (bufAt s v))) v = reassignBuf d b (bufAt s v) :=
    bufAt_setBuf_self _ hlt
  have hother : ∀ k, k ≠ v → bufAt (setBuf (moveBuf s v j0 (bhash d b)) v
      (reassignBuf d b (bufAt s v))) k = bufAt s k := by
    intro k hk
    rw [bufAt_setBuf_ne _ (Ne.symm hk)]
    exact bufAt_moveBuf
  have hbdst : bucketAt (moveBuf s v j0 (bhash d b)) (bhash d b) =
      v :: bucketAt s (bhash d b) :=
    bucketAt_moveBuf_dst (by rw [hinv.lbuckets]; exact hhb)
  have hbsrc : bucketAt (moveBuf s v j0 (bhash d b)) j0 =
      (bucketAt s j0).erase v :=
    bucketAt_moveBuf_src (Ne.symm hj0ne) (by rw [hinv.lbuckets]; exact hj0lt)
  have hnd : ∀ h, h < NBUCKETS →
      (bucketAt (moveBuf s v j0 (bhash d b)) h).Nodup := by
    intro h hh
    by_cases h1 : h = bhash d b
    · subst h1
      rw [hbdst]
      exact List.nodup_cons.mpr ⟨hvnot, hinv.nodup _ hh⟩
    · by_cases h2 : h = j0
      · subst h2
        rw [hbsrc]
        exact (hinv.nodup _ hh).erase _
      · rw [bucketAt_moveBuf_other (fun he => h1 he.symm) (fun he => h2 he.symm)]
        exact hinv.nodup _ hh
  refine ⟨?_, ?_, ?_, ?_, ?_, ?_, ?_, ?_, ?_⟩
  · simp only [setBuf, moveBuf, List.length_set]
    exact hinv.lbufs
  · simp only [setBuf, moveBuf, List.length_set]
    exact hinv.lbuckets
  · intro k hk
    by_cases hkv : k = v
    · subst hkv
      rw [hself]
      exact Or.inl rfl
    · rw [hother k hkv]
      exact hinv.valid01 k hk
  · intro k hk
    by_cases hkv : k = v
    · subst hkv
      rw [hself]
      simp only [reassignBuf, if_pos rfl, hpins0]
      rfl
    · rw [hother k hkv]
      exact hinv.refeq k hk
  · intro h hh k hk
    by_cases h1 : h = bhash d b
    · subst h1
      rw [bucketAt_setBuf, hbdst] at hk
      rcases List.mem_cons.mp hk with rfl | hk2
      · exact hv
      · exact hinv.member_lt _ hh k hk2
    · by_cases h2 : h = j0
      · subst h2
        rw [bucketAt_setBuf, hbsrc] at hk
        exact hinv.member_lt _ hh k (List.mem_of_mem_erase hk)
      · rw [bucketAt_setBuf,
          bucketAt_moveBuf_other (fun he => h1 he.symm) (fun he => h2 he.symm)]
          at hk
        exact hinv.member_lt _ hh k hk
  · intro h hh k hk
    by_cases h1 : h = bhash d b
    · subst h1
      rw [bucketAt_setBuf, hbdst] at hk
      rcases List.mem_cons.mp hk with rfl | hk2
      · rw [hself]
        rfl
      · have hkv : k ≠ v := fun he => hvnot (he ▸ hk2)
        rw [hother k hkv]
        exact hinv.member_hash _ hh k hk2
    · by_cases h2 : h = j0
      · subst h2
        rw [bucketAt_setBuf, hbsrc] at hk
        obtain ⟨hkv, hk2⟩ := (hinv.nodup _ hj0lt).mem_erase_iff.mp hk
        rw [hother k hkv]
        exact hinv.member_hash _ hh k hk2
      · rw [bucketAt_setBuf,
          bucketAt_moveBuf_other (fun he => h1 he.symm) (fun he => h2 he.symm)]
          at hk
        have hkv : k ≠ v := by
          intro he
          subst he
          have h3 := hinv.member_hash _ hh k hk
          rw [hvhash] at h3
          exact h2 h3.symm
        rw [hother k hkv]
        exact hinv.member_hash _ hh k hk
  · intro k hk
    by_cases hkv : k = v
    · subst hkv
      rw [hself]
      show k ∈ bucketAt (setBuf (moveBuf s k j0 (bhash d b)) k
        (reassignBuf d b (bufAt s k))) (bhash d b)
      rw [bucketAt_setBuf, hbdst]
      exact List.mem_cons_self _ _
    · rw [hother k hkv]
      have hold := hinv.contain k hk
      by_cases h1 : bhash (bufAt s k).dev (bufAt s k).blockno = bhash d b
      · rw [h1] at hold ⊢
        rw [bucketAt_setBuf, hbdst]
        exact List.mem_cons_of_mem _ hold
      · by_cases h2 : bhash (bufAt s k).dev (bufAt s k).blockno = j0
        · rw [h2] at hold ⊢
          rw [bucketAt_setBuf, hbsrc]
          exact (hinv.nodup _ hj0lt).mem_erase_iff.mpr ⟨hkv, hold⟩
        · rw [bucketAt_setBuf,
            bucketAt_moveBuf_other (fun he => h1 he.symm) (fun he => h2 he.symm)]
          exact hold
  · intro h hh
    rw [bucketAt_setBuf]
    exact hnd h hh
  · intro d2 b2 j hj
    by_cases hdd : d2 = d ∧ b2 = b
    · obtain ⟨rfl, rfl⟩ := hdd
      exfalso
      have hndL : (claimList (setBuf (moveBuf s v j0 (bhash d2 b2)) v
          (reassignBuf d2 b2 (bufAt s v))) d2 b2).Nodup := by
        unfold claimList
        rw [bucketAt_setBuf]
        exact (hnd _ (bhash_lt d2 b2)).filter _
      have hall : ∀ x ∈ claimList (setBuf (moveBuf s v j0 (bhash d2 b2)) v
          (reassignBuf d2 b2 (bufAt s v))) d2 b2, x = v := by
        intro x hx
        rw [claimList, List.mem_filter] at hx
        obtain ⟨hxb, hxc⟩ := hx
        by_contra hxv
        rw [bucketAt_setBuf, hbdst] at hxb
        rcases List.mem_cons.mp hxb with he | hxb2
        · exact hxv he
        · unfold claimsB at hxc
          rw [hother x hxv] at hxc
          have hfalse := hitScan_none_claims hhit x hxb2
          unfold claimsB at hfalse
          rw [hfalse] at hxc
          cases hxc
      exact tail_all_false_of_all_eq hndL hall j hj
    · have hpv : claimsB (setBuf (moveBuf s v j0 (bhash d b)) v
          (reassignBuf d b (bufAt s v))) d2 b2 v = false := by
        apply Bool.eq_false_iff.mpr
        intro hp
        unfold claimsB at hp
        rw [hself] at hp
        simp only [reassignBuf, Bool.and_eq_true, beq_iff_eq] at hp
        exact hdd ⟨hp.1.symm, hp.2.symm⟩
      by_cases h1 : bhash d2 b2 = bhash d b
      · have heq : claimList (setBuf (moveBuf s v j0 (bhash d b)) v
            (reassignBuf d b (bufAt s v))) d2 b2 = claimList s d2 b2 := by
          unfold claimList
          rw [bucketAt_setBuf, h1, hbdst]
          rw [List.filter_cons_of_neg (by simp [hpv])]
          exact List.filter_congr (fun x hx => by
            have hxv : x ≠ v := fun he => hvnot (he ▸ hx)
            unfold claimsB
            rw [hother x hxv])
        rw [heq] at hj
        have hold := hinv.tail_inactive d2 b2 j hj
        have hjv : j ≠ v := by
          intro he
          subst he
          have hjm := List.mem_of_mem_tail hj
          rw [claimList, List.mem_filter] at hjm
          exact hvnot (h1 ▸ hjm.1)
        rw [hother j hjv]
        exact hold
      · by_cases h2 : bhash d2 b2 = j0
        · have hsub : (claimList (setBuf (moveBuf s v j0 (bhash d b)) v
              (reassignBuf d b (bufAt s v))) d2 b2).Sublist
              (claimList s d2 b2) := by
            unfold claimList
            rw [bucketAt_setBuf, h2, hbsrc]
            have hcongr : List.filter (claimsB (setBuf (moveBuf s v j0
                (bhash d b)) v (reassignBuf d b (bufAt s v))) d2 b2)
                ((bucketAt s j0).erase v) =
                List.filter (claimsB s d2 b2) ((bucketAt s j0).erase v) :=
              List.filter_congr (fun x hx => by
                obtain ⟨hxv, -⟩ := (hinv.nodup _ hj0lt).mem_erase_iff.mp hx
                unfold claimsB
                rw [hother x hxv])
            rw [hcongr]
            exact (List.erase_sublist _ _).filter _
          have hjold := tail_mem_of_sublist hsub j hj
          have hold := hinv.tail_inactive d2 b2 j hjold
          have hjv : j ≠ v := by
            intro he
            subst he
            have hjm := List.mem_of_mem_tail hj
            rw [claimList, List.mem_filter, bucketAt_setBuf, h2, hbsrc] at hjm
            exact ((hinv.nodup _ hj0lt).mem_erase_iff.mp hjm.1).1 rfl
          rw [hother j hjv]
          exact hold
        · have heq : claimList (setBuf (moveBuf s v j0 (bhash d b)) v
              (reassignBuf d b (bufAt s v))) d2 b2 = claimList s d2 b2 := by
            unfold claimList
            rw [bucketAt_setBuf,
              bucketAt_moveBuf_other (fun he => h1 he.symm)
                (fun he => h2 he.symm)]
            exact List.filter_congr (fun x hx => by
              have hxv : x ≠ v := by
                intro he
                subst he
                have h3 := hinv.member_hash _ (bhash_lt d2 b2) x hx
                rw [hvhash] at h3
                exact h2 h3.symm
              unfold claimsB
              rw [hother x hxv])
          rw [heq] at hj
          have hold := hinv.tail_inactive d2 b2 j hj
          have hjv : j ≠ v := by
            intro he
            subst he
            have hjm := List.mem_of_mem_tail hj
            rw [claimList, List.mem_filter] at hjm
            have h3 := hinv.member_hash _ (bhash_lt d2 b2) j hjm.1
            rw [hvhash] at h3
            exact h2 h3.symm
          rw [hother j hjv]
          exact hold


/-- `bget` preserves the invariant, and the returned buffer is sleep-locked
with the requested identity and a positive reference count. -/
theorem bget_inv {s : BState} {d b : Nat} {s1 : BState} {i : Nat}
    (hinv : BInv s) (hfree : (bufAt s i).locked = false)
    (h : bget d b s = some (s1, i)) :
    BInv s1 ∧ i < NBUF ∧ (bufAt s1 i).dev = d ∧ (bufAt s1 i).blockno = b ∧
      (bufAt s1 i).locked = true ∧ 1 ≤ (bufAt s1 i).refcnt := by
  rcases bget_cases h with ⟨hhit, rfl⟩ | ⟨hhit, hfs, rfl⟩ |
    ⟨hhit, hfs, j0, hev, rfl⟩
  · obtain ⟨hmem, hd, hb2⟩ := hitScan_some hhit
    have hi : i < NBUF := hinv.member_lt _ (bhash_lt d b) i hmem
    have hlt : i < s.bufs.length := by rw [hinv.lbufs]; exact hi
    have hself : bufAt (setBuf s i (bumpBuf (bufAt s i))) i =
        bumpBuf (bufAt s i) := bufAt_setBuf_self _ hlt
    have hrefold := hinv.refeq i hi
    rw [hfree] at hrefold
    simp at hrefold
    refine ⟨?_, hi, ?_, ?_, ?_, ?_⟩
    · refine binv_setBuf_same hinv hi ?_ ?_ ?_ ?_ ?_
      · rfl
      · rfl
      · exact hinv.valid01 i hi
      · show (bufAt s i).refcnt + 1 = 1 + ((bufAt s i).pins : Int)
        omega
      · refine Or.inr (Or.inr (Or.inr ?_))
        rw [hd, hb2, ← hitScan_eq_head_claimList]
        exact hhit
    · rw [hself]
      exact hd
    · rw [hself]
      exact hb2
    · rw [hself]
      rfl
    · rw [hself]
      simp only [bumpBuf]
      omega
  · obtain ⟨hvmem, hvref⟩ := freeScan_some hfs
    have hi : i < NBUF := hinv.member_lt _ (bhash_lt d b) i hvmem
    have hlt : i < s.bufs.length := by rw [hinv.lbufs]; exact hi
    have hself : bufAt (setBuf s i (reassignBuf d b (bufAt s i))) i =
        reassignBuf d b (bufAt s i) := bufAt_setBuf_self _ hlt
    refine ⟨binv_reassign_inplace hinv hhit hfs, hi, ?_, ?_, ?_, ?_⟩
    · rw [hself]; rfl
    · rw [hself]; rfl
    · rw [hself]; rfl
    · rw [hself]
      exact Int.le_refl 1
  · obtain ⟨hj0lt, hj0ne, hfs2⟩ := evictScan_some hev
    obtain ⟨hvmem, hvref⟩ := freeScan_some hfs2
    have hi : i < NBUF := hinv.member_lt _ hj0lt i hvmem
    have hlt : i < s.bufs.length := by rw [hinv.lbufs]; exact hi
    have hself : bufAt (setBuf (moveBuf s i j0 (bhash d b)) i
        (reassignBuf d b (bufAt s i))) i = reassignBuf d b (bufAt s i) :=
      bufAt_setBuf_self _ hlt
    refine ⟨binv_reassign_move hinv hhit hev, hi, ?_, ?_, ?_, ?_⟩
    · rw [hself]; rfl
    · rw [hself]; rfl
    · rw [hself]; rfl
    · rw [hself]
      exact Int.le_refl 1

/-- `bread` preserves the invariant; the returned buffer is locked, has
the requested identity and is valid. -/
theorem bread_inv {s : BState} {d b : Nat} {s1 : BState} {i : Nat} {r : Bool}
    (hinv : BInv s) (hfree : (bufAt s i).locked = false)
    (h : bread d b s = some (s1, i, r)) :
    BInv s1 ∧ i < NBUF ∧ (bufAt s1 i).dev = d ∧ (bufAt s1 i).blockno = b ∧
      (bufAt s1 i).locked = true ∧ (bufAt s1 i).valid = 1 := by
  unfold bread at h
  cases hg : bget d b s with
  | none =>
    rw [hg] at h
    cases h
  | some p =>
    obtain ⟨sg, ig⟩ := p
    rw [hg] at h
    dsimp only at h
    by_cases hval : (bufAt sg ig).valid = 0
    · rw [if_pos hval] at h
      simp only [Option.some.injEq, Prod.mk.injEq] at h
      obtain ⟨h1, h2, h3⟩ := h
      subst h1
      have h2x : i = ig := h2.symm
      subst h2x
      obtain ⟨hginv, hig, hdev, hbno, hlock, href⟩ := bget_inv hinv hfree hg
      have hglt : i < sg.bufs.length := by rw [hginv.lbufs]; exact hig
      have hself : bufAt (setBuf sg i (validateBuf (bufAt sg i))) i =
          validateBuf (bufAt sg i) := bufAt_setBuf_self _ hglt
      refine ⟨?_, hig, ?_, ?_, ?_, ?_⟩
      · refine binv_setBuf_same hginv hig ?_ ?_ ?_ ?_ ?_
        · rfl
        · rfl
        · exact Or.inr rfl
        · exact hginv.refeq i hig
        · exact Or.inl href
      · rw [hself]; exact hdev
      · rw [hself]; exact hbno
      · rw [hself]; exact hlock
      · rw [hself]; rfl
    · rw [if_neg hval] at h
      simp only [Option.some.injEq, Prod.mk.injEq] at h
      obtain ⟨h1, h2, h3⟩ := h
      have h1x : s1 = sg := h1.symm
      subst h1x
      have h2x : i = ig := h2.symm
      subst h2x
      obtain ⟨hginv, hig, hdev, hbno, hlock, href⟩ := bget_inv hinv hfree hg
      have hv1 : (bufAt s1 i).valid = 1 := by
        rcases hginv.valid01 i hig with h0 | h1
        · exact absurd h0 hval
        · exact h1
      exact ⟨hginv, hig, hdev, hbno, hlock, hv1⟩

/-- An index with a `true` sleep-lock or a positive pin count is in range
(out-of-range accesses read the all-zero default buffer). -/
theorem bufAt_default {s : BState} (hinv : BInv s) {i : Nat}
    (hge : ¬i < NBUF) : bufAt s i = defaultBuf := by
  unfold bufAt
  apply List.getD_eq_default
  rw [hinv.lbufs]
  omega

/-- `brelse` on a held buffer preserves the invariant. -/
theorem brelse_inv {s : BState} {i : Nat} (hinv : BInv s)
    (hheld : (bufAt s i).locked = true) : BInv (brelse i s) := by
  have hi : i < NBUF := by
    by_contra hge
    rw [bufAt_default hinv hge] at hheld
    cases hheld
  have hre := hinv.refeq i hi
  rw [hheld] at hre
  simp at hre
  refine binv_setBuf_same hinv hi ?_ ?_ ?_ ?_ ?_
  · rfl
  · rfl
  · exact hinv.valid01 i hi
  · show (bufAt s i).refcnt - 1 = 0 + ((bufAt s i).pins : Int)
    omega
  · left
    omega

/-- `bpin` on a held buffer preserves the invariant. -/
theorem bpin_inv {s : BState} {i : Nat} (hinv : BInv s)
    (hheld : (bufAt s i).locked = true) : BInv (bpin i s) := by
  have hi : i < NBUF := by
    by_contra hge
    rw [bufAt_default hinv hge] at hheld
    cases hheld
  have hre := hinv.refeq i hi
  rw [hheld] at hre
  simp at hre
  refine binv_setBuf_same hinv hi ?_ ?_ ?_ ?_ ?_
  · rfl
  · rfl
  · exact hinv.valid01 i hi
  · show (bufAt s i).refcnt + 1 =
      (if (bufAt s i).locked = true then 1 else 0) +
        (((bufAt s i).pins + 1 : Nat) : Int)
    rw [if_pos hheld]
    omega
  · left
    omega

/-- `bunpin` on a pinned buffer preserves the invariant. -/
theorem bunpin_inv {s : BState} {i : Nat} (hinv : BInv s)
    (hpin : 1 ≤ (bufAt s i).pins) : BInv (bunpin i s) := by
  have hi : i < NBUF := by
    by_contra hge
    rw [bufAt_default hinv hge] at hpin
    simp [defaultBuf] at hpin
  have hre := hinv.refeq i hi
  refine binv_setBuf_same hinv hi ?_ ?_ ?_ ?_ ?_
  · rfl
  · rfl
  · exact hinv.valid01 i hi
  · show (bufAt s i).refcnt - 1 =
      (if (bufAt s i).locked = true then 1 else 0) +
        (((bufAt s i).pins - 1 : Nat) : Int)
    by_cases hcl : (bufAt s i).locked = true
    · rw [if_pos hcl]
      rw [if_pos hcl] at hre
      omega
    · rw [if_neg hcl]
      rw [if_neg hcl] at hre
      omega
  · left
    rw [hre]
    by_cases hcl : (bufAt s i).locked = true
    · rw [if_pos hcl]
      omega
    · rw [if_neg hcl]
      omega

/-- Every cache step preserves the invariant. -/
theorem bstep_inv {s s1 : BState} (hinv : BInv s) (h : BStep s s1) :
    BInv s1 := by
  cases h with
  | get d b hg hfree => exact (bget_inv hinv hfree hg).1
  | read d b hr hfree => exact (bread_inv hinv hfree hr).1
  | rel i hheld => exact brelse_inv hinv hheld
  | pin i hheld => exact bpin_inv hinv hheld
  | unpin i hpin => exact bunpin_inv hinv hpin


theorem bufAt_binit (i : Nat) : bufAt binit i = defaultBuf := by
  unfold bufAt binit
  show (List.replicate NBUF defaultBuf).getD i defaultBuf = defaultBuf
  rcases Nat.lt_or_ge i NBUF with hlt | hge
  · rw [List.getD_eq_getElem _ _ (by simpa using hlt)]
    exact List.getElem_replicate _ _
  · exact List.getD_eq_default _ _ (by simpa using hge)

/-- The invariant holds in the initial state produced by `binit`. -/
theorem binit_inv : BInv binit := by
  refine ⟨by decide, by decide, ?_, ?_, by decide, by decide, by decide,
    by decide, ?_⟩
  · intro i _
    rw [bufAt_binit]
    exact Or.inl rfl
  · intro i _
    rw [bufAt_binit]
    rfl
  · intro d b j _
    rw [bufAt_binit]
    exact ⟨rfl, rfl⟩

/-- The invariant holds in every reachable cache state. -/
theorem breach_inv {s : BState} (h : BReach s) : BInv s := by
  induction h with
  | init => exact binit_inv
  | step h hs ih => exact bstep_inv ih hs

/-- In a state satisfying the invariant, an active claimer (positive
`refcnt` or `valid = 1`) of an identity is the head of that identity's
claimer list. -/
theorem active_mem_head {s : BState} (hinv : BInv s) {d b i : Nat}
    (hi : i ∈ claimList s d b)
    (hact : 1 ≤ (bufAt s i).refcnt ∨ (bufAt s i).valid = 1) :
    (claimList s d b).head? = some i := by
  cases hc : claimList s d b with
  | nil =>
    rw [hc] at hi
    cases hi
  | cons x t =>
    rw [hc] at hi
    rcases List.mem_cons.mp hi with rfl | hit
    · rfl
    · exfalso
      have hti := hinv.tail_inactive d b i (by rw [hc]; exact hit)
      rcases hact with ha | ha
      · rw [hti.1] at ha
        omega
      · rw [hti.2] at ha
        cases ha


/-- C4 counterexample: in the reachable state produced by `binit` itself,
the identity `(0, 0)` is claimed by more than one buffer — all thirty
buffers carry `dev = 0, blockno = 0` after initialisation, so "at most one
buffer claims a given `(dev, blockno)`" fails literally. -/
theorem bcache_identity_not_unique :
    BReach binit ∧ (0 : Nat) ≠ 1 ∧ 0 < NBUF ∧ 1 < NBUF ∧
      claimsB binit 0 0 0 = true ∧ claimsB binit 0 0 1 = true :=
  ⟨BReach.init, by decide, by decide, by decide, by decide, by decide⟩

/-- C4 (amended): in every reachable cache state, at most one ACTIVE
buffer (positive `refcnt` or `valid = 1`) claims a given
`(dev, blockno)`; moreover every buffer has `valid ∈ {0, 1}` and a
non-negative `refcnt`. -/
theorem bcache_unique_active_claimer {s : BState} (h : BReach s) :
    (∀ d b i j, i < NBUF → j < NBUF →
      claimsB s d b i = true → claimsB s d b j = true →
      (1 ≤ (bufAt s i).refcnt ∨ (bufAt s i).valid = 1) →
      (1 ≤ (bufAt s j).refcnt ∨ (bufAt s j).valid = 1) → i = j) ∧
    (∀ i, i < NBUF → ((bufAt s i).valid = 0 ∨ (bufAt s i).valid = 1) ∧
      0 ≤ (bufAt s i).refcnt) := by
  have hinv := breach_inv h
  constructor
  · intro d b i j hi hj hci hcj hai haj
    have hmem : ∀ k, k < NBUF → claimsB s d b k = true →
        k ∈ claimList s d b := by
      intro k hk hck
      rw [claimList, List.mem_filter]
      refine ⟨?_, hck⟩
      have hcont := hinv.contain k hk
      unfold claimsB at hck
      simp only [Bool.and_eq_true, beq_iff_eq] at hck
      rw [hck.1, hck.2] at hcont
      exact hcont
    have h1 := active_mem_head hinv (hmem i hi hci) hai
    have h2 := active_mem_head hinv (hmem j hj hcj) haj
    rw [h1] at h2
    exact Option.some.inj h2
  · intro i hi
    refine ⟨hinv.valid01 i hi, ?_⟩
    have hre := hinv.refeq i hi
    rw [hre]
    by_cases hcl : (bufAt s i).locked = true
    · rw [if_pos hcl]
      omega
    · rw [if_neg hcl]
      omega

/-- The cache state after one `bread(1, 1)` from the initial state:
buffer 0 is stolen from bucket 0 into bucket `bhash 1 1 = 2` and now
claims `(1, 1)` with `valid = 1`, `refcnt = 1`, sleep-locked. -/
def bcacheW1 : BState :=
  match bread 1 1 binit with
  | some p => p.1
  | none => binit

theorem bcache_unique_active_claimer_witness :
    (0 : Nat) = 0 ∧
      ((bufAt bcacheW1 5).valid = 0 ∨ (bufAt bcacheW1 5).valid = 1) ∧
      0 ≤ (bufAt bcacheW1 5).refcnt := by
  have hr : BReach bcacheW1 :=
    BReach.step BReach.init (@BStep.read binit bcacheW1 1 1 0 true rfl rfl)
  exact ⟨(bcache_unique_active_claimer hr).1 1 1 0 0 (by decide) (by decide)
      (by decide) (by decide) (by decide) (by decide),
    (bcache_unique_active_claimer hr).2 5 (by decide)⟩

/-- One `bread(d, b)` followed by `brelse` of the returned buffer; the
boolean records whether the disk was read. -/
def breadBrelseRound (d b : Nat) (s : BState) : Option (BState × Bool) :=
  match bread d b s with
  | none => none
  | some (s1, i, r) => some (brelse i s1, r)

/-- `n` bread/brelse rounds on the same block, counting disk reads. -/
def breadBrelseRounds (d b : Nat) : Nat → BState → Option (BState × Nat)
  | 0, s => some (s, 0)
  | n + 1, s =>
    match breadBrelseRound d b s with
    | none => none
    | some (s1, r) =>
      match breadBrelseRounds d b n s1 with
      | none => none
      | some (s2, c) => some (s2, (if r then 1 else 0) + c)

/-- C5: in any reachable state, `bread(d, b)` issues a disk read exactly
when no buffer with `valid = 1` currently claims `(d, b)`; the returned
buffer claims `(d, b)`, is valid and sleep-locked.  Concretely, twenty
bread/brelse rounds on block `(1, 1)` from the initial state perform
exactly one disk read. -/
theorem bread_miss_once {s : BState} (hr : BReach s) {d b : Nat}
    {s1 : BState} {i : Nat} {r : Bool}
    (hfree : (bufAt s i).locked = false)
    (h : bread d b s = some (s1, i, r)) :
    (r = false ↔ ∃ k, k < NBUF ∧ claimsB s d b k = true ∧
      (bufAt s k).valid = 1) ∧
    i < NBUF ∧ (bufAt s1 i).dev = d ∧ (bufAt s1 i).blockno = b ∧
    (bufAt s1 i).valid = 1 ∧ (bufAt s1 i).locked = true ∧
    (breadBrelseRounds 1 1 20 binit).map (fun p => p.2) = some 1 := by
  have hinv := breach_inv hr
  obtain ⟨hinv1, hi, hdev, hbno, hlock, hval1⟩ := bread_inv hinv hfree h
  refine ⟨?_, hi, hdev, hbno, hval1, hlock, by decide⟩
  constructor
  · intro hrf
    subst hrf
    unfold bread at h
    cases hg : bget d b s with
    | none =>
      rw [hg] at h
      cases h
    | some p =>
      obtain ⟨sg, ig⟩ := p
      rw [hg] at h
      dsimp only at h
      by_cases hv : (bufAt sg ig).valid = 0
      · rw [if_pos hv] at h
        simp only [Option.some.injEq, Prod.mk.injEq] at h
        exact absurd h.2.2 (by decide)
      · rw [if_neg hv] at h
        rcases bget_cases hg with ⟨hhit, rfl⟩ | ⟨hhit, hfs, rfl⟩ |
          ⟨hhit, hfs, j0, hev, rfl⟩
        · obtain ⟨hmem, hdg, hbg⟩ := hitScan_some hhit
          have hig : ig < NBUF := hinv.member_lt _ (bhash_lt d b) ig hmem
          have hlt : ig < s.bufs.length := by rw [hinv.lbufs]; exact hig
          have hselfg : bufAt (setBuf s ig (bumpBuf (bufAt s ig))) ig =
              bumpBuf (bufAt s ig) := bufAt_setBuf_self _ hlt
          rw [hselfg] at hv
          refine ⟨ig, hig, ?_, ?_⟩
          · unfold claimsB
            rw [hdg, hbg]
            simp
          · rcases hinv.valid01 ig hig with h0 | h1v
            · exact absurd h0 hv
            · exact h1v
        · exfalso
          obtain ⟨hvmem, -⟩ := freeScan_some hfs
          have hig : ig < NBUF := hinv.member_lt _ (bhash_lt d b) ig hvmem
          have hlt : ig < s.bufs.length := by rw [hinv.lbufs]; exact hig
          have hselfg : bufAt (setBuf s ig (reassignBuf d b (bufAt s ig)))
              ig = reassignBuf d b (bufAt s ig) := bufAt_setBuf_self _ hlt
          rw [hselfg] at hv
          exact hv rfl
        · exfalso
          obtain ⟨hjlt, hjne, hfs2⟩ := evictScan_some hev
          obtain ⟨hvmem, -⟩ := freeScan_some hfs2
          have hig : ig < NBUF := hinv.member_lt _ hjlt ig hvmem
          have hlt : ig < s.bufs.length := by rw [hinv.lbufs]; exact hig
          have hselfg : bufAt (setBuf (moveBuf s ig j0 (bhash d b)) ig
              (reassignBuf d b (bufAt s ig))) ig =
              reassignBuf d b (bufAt s ig) := bufAt_setBuf_self _ hlt
          rw [hselfg] at hv
          exact hv rfl
  · rintro ⟨k, hk, hck, hkv⟩
    have hkmem : k ∈ claimList s d b := by
      rw [claimList, List.mem_filter]
      refine ⟨?_, hck⟩
      have hcont := hinv.contain k hk
      have hck2 := hck
      unfold claimsB at hck2
      simp only [Bool.and_eq_true, beq_iff_eq] at hck2
      rw [hck2.1, hck2.2] at hcont
      exact hcont
    have hhead := active_mem_head hinv hkmem (Or.inr hkv)
    have hhit : hitScan s d b (bhash d b) = some k := by
      rw [hitScan_eq_head_claimList]
      exact hhead
    have hg : bget d b s = some (setBuf s k (bumpBuf (bufAt s k)), k) := by
      unfold bget
      rw [hhit]
    unfold bread at h
    rw [hg] at h
    dsimp only at h
    have hklt : k < s.bufs.length := by rw [hinv.lbufs]; exact hk
    have hselfg : bufAt (setBuf s k (bumpBuf (bufAt s k))) k =
        bumpBuf (bufAt s k) := bufAt_setBuf_self _ hklt
    rw [if_neg (by
      rw [hselfg]
      show ¬(bufAt s k).valid = 0
      rw [hkv]
      exact one_ne_zero)] at h
    simp only [Option.some.injEq, Prod.mk.injEq] at h
    exact h.2.2.symm

theorem bread_miss_once_witness :
    ((true = false ↔ ∃ k, k < NBUF ∧ claimsB binit 1 1 k = true ∧
        (bufAt binit k).valid = 1) ∧
      0 < NBUF ∧ (bufAt bcacheW1 0).dev = 1 ∧ (bufAt bcacheW1 0).blockno = 1 ∧
      (bufAt bcacheW1 0).valid = 1 ∧ (bufAt bcacheW1 0).locked = true ∧
      (breadBrelseRounds 1 1 20 binit).map (fun p => p.2) = some 1) :=
  bread_miss_once BReach.init (by decide) rfl

end BCache
